import Mathlib

/-! # A verification of the Hitori backtracking solver (`solver.py`)

This file gives a shallow embedding of the constrained backtracking search of
`solver.py` (class `HitoriSolver` together with its helper functions) and proves
the behavioural properties claimed by the design document: soundness of the
produced solutions with respect to the two local Hitori rules, the component
bound on accepted solutions, admissibility of the optimistic component pruning,
the quota contract of `solve`, restoration of the working state, and the
behaviour of the constructor and of `main`'s argument validation.

Cells carry the Python encoding: a label cell is `some 0` (white / kept),
`some 1` (black / removed) or `none` (undecided); a binary mask cell is `0`
(white) or `1` (black).  The in-place mutation of `self.state` is modelled by
threading the state through the recursion and returning it, so that the
"assign / recurse / revert" cycle of the Python code is visible in the model.
Bounded recursion (`bfs`, `backtrack`) is expressed with an explicit fuel
argument; `H*W + 1` units are always sufficient, as proved below.
-/

namespace Hitori

abbrev Cell : Type := Nat × Nat

/-- A puzzle grid: rows of numbers. -/
abbrev Grid : Type := List (List Nat)

/-- A label state, mirroring the Python `state` matrix of `0` / `1` / `None`. -/
abbrev LState : Type := List (List (Option Nat))

/-- `neighbors_orth` (solver.py): in-bounds orthogonal neighbours of `(r, c)`,
in the order `up, down, left, right` used by the source. -/
def neighbors_orth (H W r c : Nat) : List Cell :=
  [((-1 : Int), (0 : Int)), (1, 0), (0, -1), (0, 1)].filterMap fun d =>
    let nr : Int := (r : Int) + d.1
    let nc : Int := (c : Int) + d.2
    if 0 ≤ nr ∧ nr < (H : Int) ∧ 0 ≤ nc ∧ nc < (W : Int) then some (nr.toNat, nc.toNat)
    else none

/-- Row-major enumeration of the `H × W` cell coordinates: the order of the
Python `for r in range(H): for c in range(W)` loops. -/
def cellsRM (H W : Nat) : List Cell :=
  (List.range H).flatMap fun r => (List.range W).map fun c => (r, c)

/-- Read entry `(r, c)` of a numeric matrix (the source reads in bounds only;
out of range defaults to `1`, i.e. black, for masks). -/
def getRC (m : List (List Nat)) (r c : Nat) : Nat := (m.getD r []).getD c 1

/-- Read a label cell, `state[r][c]` (the source reads in bounds only; out of
range defaults to `none`). -/
def getCell (st : LState) (r c : Nat) : Option Nat := (st.getD r []).getD c none

/-- Write a label cell, `state[r][c] = v` (writes out of range are dropped). -/
def setCell (st : LState) (r c : Nat) (v : Option Nat) : LState :=
  st.set r ((st.getD r []).set c v)

/-- The `while queue:` loop of `count_connected_components`: pop the head of the
queue, and enqueue-and-mark every white unvisited orthogonal neighbour.  The
`visited` boolean matrix is modelled as the finite set of marked coordinates. -/
def bfs (m : List (List Nat)) (H W : Nat) : Nat → List Cell → Finset Cell → Finset Cell
  | 0, _, visited => visited
  | _ + 1, [], visited => visited
  | fuel + 1, p :: queue, visited =>
    let a := (neighbors_orth H W p.1 p.2).foldl
      (fun (a : List Cell × Finset Cell) n =>
        if getRC m n.1 n.2 = 0 ∧ n ∉ a.2 then (a.1 ++ [n], insert n a.2) else a)
      (queue, visited)
    bfs m H W fuel a.1 a.2

/-- `count_connected_components` (solver.py): scan the cells in row-major order;
every white unvisited cell starts a new component, whose cells are all marked by
a breadth-first traversal.  `H*W + 1` units of fuel always drain the queue
(each enqueue marks a fresh cell, so there are at most `H*W` dequeues). -/
def count_connected_components (grid : List (List Nat)) : Nat :=
  let H := grid.length
  let W := (grid.getD 0 []).length
  ((cellsRM H W).foldl
    (fun (a : Nat × Finset Cell) p =>
      if getRC grid p.1 p.2 = 0 ∧ p ∉ a.2 then
        (a.1 + 1, bfs grid H W (H * W + 1) [p] (insert p a.2))
      else a)
    (0, (∅ : Finset Cell))).1

/-- `white_connected` (solver.py): the white cells form one single component. -/
def white_connected (grid : List (List Nat)) : Bool :=
  count_connected_components grid == 1

/-- Grid values at the white cells of row `r`, in column order: the `row_vals`
accumulation of `valid_partial` collects exactly these. -/
def rowWhiteVals (g : Grid) (W : Nat) (st : LState) (r : Nat) : List Nat :=
  (List.range W).filterMap fun col =>
    if getCell st r col = some 0 then some (getRC g r col) else none

/-- Grid values at the white cells of column `c`, in row order. -/
def colWhiteVals (g : Grid) (H : Nat) (st : LState) (c : Nat) : List Nat :=
  (List.range H).filterMap fun row =>
    if getCell st row c = some 0 then some (getRC g row c) else none

/-- `HitoriSolver.allowed`: `[0]` always, plus `1` when no orthogonal neighbour
is already black. -/
def allowed (H W : Nat) (st : LState) (r c : Nat) : List Nat :=
  if (neighbors_orth H W r c).all (fun n => !(getCell st n.1 n.2 == some 1)) then [0, 1]
  else [0]

/-- `HitoriSolver.find_empty`: the first undecided cell in row-major order. -/
def find_empty (H W : Nat) (st : LState) : Option Cell :=
  (cellsRM H W).find? fun p => (getCell st p.1 p.2).isNone

/-- `HitoriSolver.valid_partial`: after setting cell `(r, c)`, a black cell must
have no black neighbour; a white cell must keep its row's and its column's white
grid values pairwise distinct. -/
def valid_partial (g : Grid) (H W : Nat) (st : LState) (r c : Nat) : Bool :=
  if getCell st r c = some 1 then
    (neighbors_orth H W r c).all fun n => !(getCell st n.1 n.2 == some 1)
  else
    decide (rowWhiteVals g W st r).Nodup && decide (colWhiteVals g H st c).Nodup

/-- The binary grid built by `HitoriSolver.check_components`: white where the
label is `some 0` (white) or `none` (undecided treated optimistically as
white), black otherwise. -/
def binary_grid (H W : Nat) (st : LState) : List (List Nat) :=
  (List.range H).map fun r => (List.range W).map fun c =>
    if getCell st r c = some 0 then 0
    else if getCell st r c = none then 0
    else 1

/-- The `white_map` built by `HitoriSolver.valid_full`: white exactly where the
label is `some 0`; undecided cells are not counted. -/
def white_map (H W : Nat) (st : LState) : List (List Nat) :=
  (List.range H).map fun r => (List.range W).map fun c =>
    if getCell st r c = some 0 then 0 else 1

/-- `HitoriSolver.check_components`: the optimistic component count is within
the bound `max_components`. -/
def check_components (H W : Nat) (M : Int) (st : LState) : Bool :=
  decide ((count_connected_components (binary_grid H W st) : Int) ≤ M)

/-- `HitoriSolver.valid_full`: the exact component count of the white cells is
within the bound `max_components`. -/
def valid_full (H W : Nat) (M : Int) (st : LState) : Bool :=
  decide ((count_connected_components (white_map H W st) : Int) ≤ M)

/-- The recursive `backtrack` closure of `HitoriSolver.solve`, with the in-place
mutation of `self.state` / `self.solutions` made explicit: the returned pair is
(working state on exit, collected solutions).  Quota check, component pruning,
leaf acceptance and the assign / validate / recurse / revert loop follow the
source line by line; `solve` supplies `H*W + 1` fuel, one unit per recursion
level (each level decides one previously undecided cell). -/
def backtrack (g : Grid) (H W : Nat) (M need : Int) :
    Nat → LState → List LState → LState × List LState
  | 0, st, sols => (st, sols)
  | fuel + 1, st, sols =>
    if 0 < need ∧ need ≤ (sols.length : Int) then (st, sols)
    else if check_components H W M st then
      match find_empty H W st with
      | none => (st, if valid_full H W M st then sols ++ [st] else sols)
      | some (r, c) =>
        (allowed H W st r c).foldl
          (fun (a : LState × List LState) v =>
            let st1 := setCell a.1 r c (some v)
            let b := if valid_partial g H W st1 r c then
                backtrack g H W M need fuel st1 a.2
              else (st1, a.2)
            (setCell b.1 r c none, b.2))
          (st, sols)
    else (st, sols)

/-- The solver object: `H`, `W`, the grid, the working label state, the bound
`max_components` and the collected `solutions`. -/
structure HitoriSolver where
  H : Nat
  W : Nat
  grid : Grid
  state : LState
  max_components : Int
  solutions : List LState

/-- `HitoriSolver.__init__`: dimensions are taken from the grid; a falsy
(absent or empty) resumed state is replaced by the all-undecided matrix; the
resumed state is *not* checked against the grid's dimensions. -/
def HitoriSolver.init (grid : Grid) (state : Option LState) (max_components : Int) :
    HitoriSolver :=
  let H := grid.length
  let W := (grid.getD 0 []).length
  { H := H, W := W, grid := grid
    state := match state with
      | some s => if s.isEmpty then List.replicate H (List.replicate W none) else s
      | none => List.replicate H (List.replicate W none)
    max_components := max_components
    solutions := [] }

/-- `HitoriSolver.solve`: run `backtrack` on the current state and solution
list, keep the final working state and the collected solutions. -/
def HitoriSolver.solve (s : HitoriSolver) (need : Int) : HitoriSolver :=
  let r := backtrack s.grid s.H s.W s.max_components need (s.H * s.W + 1) s.state s.solutions
  { s with state := r.1, solutions := r.2 }

/-- The argument validation of `main` (solver.py): a negative `--M` is rejected
first; `--all` requests all solutions; `--find 0` requests all, a positive
`--find N` requests `N`, a negative `--find` is rejected; with neither flag one
solution is requested.  The result is the effective `need` handed to `solve`. -/
def mainNeed (M : Int) (allFlag : Bool) (find : Option Int) : Except String Int :=
  if M < 0 then Except.error "Ошибка: значение --M должно быть неотрицательным"
  else if allFlag then Except.ok 0
  else match find with
    | some f =>
      if f = 0 then Except.ok 0
      else if 0 < f then Except.ok f
      else Except.error "Ошибка: значение --find должно быть неотрицательным"
    | none => Except.ok 1

/-! ## Spec-side predicates (executable checkers for the puzzle rules) -/

/-- No two orthogonally adjacent board cells are both removed. -/
def noTwoAdjacentRemoved (H W : Nat) (st : LState) : Bool :=
  (cellsRM H W).all fun p =>
    (neighbors_orth H W p.1 p.2).all fun q =>
      !(getCell st p.1 p.2 == some 1 && getCell st q.1 q.2 == some 1)

/-- In every row and in every column, the grid values at kept cells are
pairwise distinct. -/
def keptValuesUnique (g : Grid) (H W : Nat) (st : LState) : Bool :=
  ((List.range H).all fun r => decide (rowWhiteVals g W st r).Nodup) &&
  ((List.range W).all fun c => decide (colWhiteVals g H st c).Nodup)

/-- Every board cell is decided: kept (`some 0`) or removed (`some 1`). -/
def fullyDecided (H W : Nat) (st : LState) : Bool :=
  (cellsRM H W).all fun p =>
    getCell st p.1 p.2 == some 0 || getCell st p.1 p.2 == some 1

/-- `t` agrees with `st` on every board cell that `st` has decided. -/
def extendsState (H W : Nat) (st t : LState) : Bool :=
  (cellsRM H W).all fun p =>
    getCell st p.1 p.2 == none || getCell t p.1 p.2 == getCell st p.1 p.2

/-- The state is an `H × W` matrix. -/
def dimsOk (H W : Nat) (st : LState) : Bool :=
  st.length == H && st.all fun row => row.length == W

/-! ## List utilities -/

theorem getD_set_self {α : Type _} (l : List α) (n : Nat) (a d : α) (h : n < l.length) :
    (l.set n a).getD n d = a := by
  induction l generalizing n with
  | nil => simp at h
  | cons x xs ih =>
    cases n with
    | zero => rfl
    | succ m => simpa using ih m (by simpa using h)

theorem getD_set_ne {α : Type _} (l : List α) {m n : Nat} (a d : α) (h : m ≠ n) :
    (l.set n a).getD m d = l.getD m d := by
  induction l generalizing m n with
  | nil => rfl
  | cons x xs ih =>
    cases n with
    | zero => cases m with
      | zero => exact absurd rfl h
      | succ k => rfl
    | succ n' => cases m with
      | zero => rfl
      | succ m' => simpa using ih (m := m') (n := n') (by omega)

theorem set_of_getD {α : Type _} {l : List α} {n : Nat} {d a : α} (h : l.getD n d = a) :
    l.set n a = l := by
  induction l generalizing n with
  | nil => rfl
  | cons x xs ih =>
    cases n with
    | zero =>
      simp only [List.getD_cons_zero] at h
      simp [h]
    | succ m =>
      simp only [List.set_cons_succ, List.cons.injEq, true_and]
      exact ih (by simpa using h)

theorem getD_eq_getElem {α : Type _} (l : List α) (n : Nat) (d : α) (h : n < l.length) :
    l.getD n d = l[n] := by
  induction l generalizing n with
  | nil => simp at h
  | cons x xs ih =>
    cases n with
    | zero => rfl
    | succ m => simpa using ih m (by simpa using h)

/-! ## Cell access lemmas -/

/-- The state is an `H × W` matrix (propositional form). -/
def Dims (H W : Nat) (st : LState) : Prop :=
  st.length = H ∧ ∀ row ∈ st, row.length = W

theorem dims_row_length {H W : Nat} {st : LState} (hd : Dims H W st) {r : Nat} (hr : r < H) :
    (st.getD r []).length = W := by
  have hlen : r < st.length := by rw [hd.1]; exact hr
  rw [getD_eq_getElem st r [] hlen]
  exact hd.2 _ (st.getElem_mem hlen)

theorem getCell_setCell_self {st : LState} {r c : Nat} {H W : Nat} (hd : Dims H W st)
    (hr : r < H) (hc : c < W) (v : Option Nat) :
    getCell (setCell st r c v) r c = v := by
  unfold getCell setCell
  have hrl : r < st.length := by rw [hd.1]; exact hr
  rw [getD_set_self st r _ [] hrl]
  exact getD_set_self _ c v none (by rw [dims_row_length hd hr]; exact hc)

theorem getCell_setCell_ne {st : LState} {r c r' c' : Nat} (v : Option Nat)
    (h : r' ≠ r ∨ c' ≠ c) :
    getCell (setCell st r c v) r' c' = getCell st r' c' := by
  unfold getCell setCell
  rcases h with h | h
  · rw [getD_set_ne st _ [] h]
  · rcases Nat.lt_or_ge r st.length with hr | hr
    · by_cases hrr : r' = r
      · subst hrr
        rw [getD_set_self st _ _ [] hr, getD_set_ne _ _ none h]
      · rw [getD_set_ne st _ [] hrr]
    · rw [List.set_eq_of_length_le (by simpa using hr)]

theorem setCell_none_of_getCell_none {st : LState} {r c : Nat}
    (h : getCell st r c = none) : setCell st r c none = st := by
  unfold setCell
  rw [set_of_getD (d := none) h, set_of_getD rfl]

theorem setCell_setCell_none {st : LState} {r c : Nat} (v : Option Nat)
    (h : getCell st r c = none) : setCell (setCell st r c v) r c none = st := by
  unfold setCell
  rcases Nat.lt_or_ge r st.length with hr | hr
  · rw [getD_set_self st r _ [] hr, List.set_set, List.set_set,
      set_of_getD (d := none) h, set_of_getD rfl]
  · have h1 : st.set r ((st.getD r []).set c v) = st :=
      List.set_eq_of_length_le (by simpa using hr)
    rw [h1, List.set_eq_of_length_le (by simpa using hr)]

theorem dims_setCell {H W : Nat} {st : LState} (hd : Dims H W st) (r c : Nat) (v : Option Nat) :
    Dims H W (setCell st r c v) := by
  rcases Nat.lt_or_ge r st.length with hr | hr
  · refine ⟨by simpa [setCell] using hd.1, ?_⟩
    intro row hrow
    rcases List.mem_or_eq_of_mem_set hrow with h | h
    · exact hd.2 _ h
    · subst h
      simp only [List.length_set]
      rw [getD_eq_getElem st r [] hr]
      exact hd.2 _ (st.getElem_mem hr)
  · unfold setCell
    rw [List.set_eq_of_length_le (by simpa using hr)]
    exact hd

/-! ## The row-major cell enumeration -/

theorem mem_cellsRM {H W : Nat} {p : Cell} : p ∈ cellsRM H W ↔ p.1 < H ∧ p.2 < W := by
  obtain ⟨r, c⟩ := p
  simp only [cellsRM, List.mem_flatMap, List.mem_map, List.mem_range]
  constructor
  · rintro ⟨a, ha, b, hb, h⟩
    obtain ⟨rfl, rfl⟩ := Prod.mk.injEq .. ▸ h
    exact ⟨ha, hb⟩
  · rintro ⟨h1, h2⟩
    exact ⟨r, h1, c, h2, rfl⟩

/-- Scan index of a cell in the row-major order. -/
def ordRM (W : Nat) (p : Cell) : Nat := p.1 * W + p.2

theorem ordRM_lt {W a b c d : Nat} (hac : a < c) (hb : b < W) :
    a * W + b < c * W + d := by
  have h1 : (a + 1) * W ≤ c * W := Nat.mul_le_mul_right W (Nat.succ_le_of_lt hac)
  calc a * W + b < a * W + W := by omega
    _ = (a + 1) * W := by ring
    _ ≤ c * W := h1
    _ ≤ c * W + d := Nat.le_add_right _ _

theorem ordRM_inj {W : Nat} {p q : Cell} (hp : p.2 < W) (hq : q.2 < W)
    (h : ordRM W p = ordRM W q) : p = q := by
  obtain ⟨a, b⟩ := p
  obtain ⟨c, d⟩ := q
  simp only [ordRM] at h hp hq
  rcases Nat.lt_trichotomy a c with hac | hac | hac
  · exact absurd h (Nat.ne_of_lt (ordRM_lt hac hp))
  · subst hac
    have : b = d := by omega
    simp [this]
  · exact absurd h.symm (Nat.ne_of_lt (ordRM_lt hac hq))

theorem cellsRM_pairwise (H W : Nat) :
    (cellsRM H W).Pairwise fun p q => ordRM W p < ordRM W q := by
  unfold cellsRM
  induction H with
  | zero => simp
  | succ h ih =>
    rw [List.range_succ, List.flatMap_append]
    refine List.pairwise_append.2 ⟨ih, ?_, ?_⟩
    · simp only [List.flatMap_cons, List.flatMap_nil, List.append_nil]
      refine List.Pairwise.map _ ?_ (List.pairwise_lt_range W)
      intro a b hab
      simpa [ordRM] using hab
    · intro p hp q hq
      simp only [List.mem_flatMap, List.mem_map, List.mem_range] at hp
      simp only [List.flatMap_cons, List.flatMap_nil, List.append_nil, List.mem_map,
        List.mem_range] at hq
      obtain ⟨a, ha, b, hb, rfl⟩ := hp
      obtain ⟨d, hd, rfl⟩ := hq
      exact ordRM_lt ha hb

theorem cellsRM_nodup (H W : Nat) : (cellsRM H W).Nodup :=
  (cellsRM_pairwise H W).imp fun h => by
    intro heq
    subst heq
    exact absurd h (lt_irrefl _)

theorem cellsRM_cons {H W : Nat} (hH : 1 ≤ H) (hW : 1 ≤ W) :
    ∃ t, cellsRM H W = ((0 : Nat), (0 : Nat)) :: t := by
  cases H with
  | zero => omega
  | succ h =>
    cases W with
    | zero => omega
    | succ w =>
      rw [cellsRM, List.range_succ_eq_map, List.flatMap_cons]
      rw [List.range_succ_eq_map, List.map_cons]
      exact ⟨_, rfl⟩

/-! ## Adjacency and the neighbour list -/

/-- Orthogonal adjacency of two in-bounds board cells. -/
def Adj (H W : Nat) (p q : Cell) : Prop :=
  p.1 < H ∧ p.2 < W ∧ q.1 < H ∧ q.2 < W ∧
    ((p.1 = q.1 ∧ (p.2 + 1 = q.2 ∨ q.2 + 1 = p.2)) ∨
     (p.2 = q.2 ∧ (p.1 + 1 = q.1 ∨ q.1 + 1 = p.1)))

instance (H W : Nat) (p q : Cell) : Decidable (Adj H W p q) := by
  unfold Adj
  infer_instance

theorem adj_flip {H W : Nat} {p q : Cell} (h : Adj H W p q) : Adj H W q p := by
  obtain ⟨h1, h2, h3, h4, h5⟩ := h
  exact ⟨h3, h4, h1, h2, by tauto⟩

theorem mem_neighbors_orth {H W r c : Nat} {q : Cell} :
    q ∈ neighbors_orth H W r c ↔ q.1 < H ∧ q.2 < W ∧
      ((r = q.1 ∧ (c + 1 = q.2 ∨ q.2 + 1 = c)) ∨ (c = q.2 ∧ (r + 1 = q.1 ∨ q.1 + 1 = r))) := by
  obtain ⟨qr, qc⟩ := q
  simp only [neighbors_orth, List.mem_filterMap, List.mem_cons, List.not_mem_nil, or_false]
  constructor
  · rintro ⟨d, hd, hf⟩
    rcases hd with rfl | rfl | rfl | rfl <;>
      · dsimp only at hf
        split_ifs at hf with hcond <;>
          simp only [Option.some.injEq, Prod.ext_iff, reduceCtorEq] at hf <;> omega
  · rintro ⟨h1, h2, h5⟩
    rcases h5 with ⟨he, hor | hor⟩ | ⟨he, hor | hor⟩
    · refine ⟨(0, 1), by simp, ?_⟩
      dsimp only
      rw [if_pos (by omega)]
      exact congrArg some (Prod.ext (by omega) (by omega))
    · refine ⟨(0, -1), by simp, ?_⟩
      dsimp only
      rw [if_pos (by omega)]
      exact congrArg some (Prod.ext (by omega) (by omega))
    · refine ⟨(1, 0), by simp, ?_⟩
      dsimp only
      rw [if_pos (by omega)]
      exact congrArg some (Prod.ext (by omega) (by omega))
    · refine ⟨(-1, 0), by simp, ?_⟩
      dsimp only
      rw [if_pos (by omega)]
      exact congrArg some (Prod.ext (by omega) (by omega))

/-- For an in-bounds centre cell, the neighbour list is exactly the adjacency
relation. -/
theorem mem_neighbors_orth_adj {H W r c : Nat} {q : Cell} (hr : r < H) (hc : c < W) :
    q ∈ neighbors_orth H W r c ↔ Adj H W (r, c) q := by
  rw [mem_neighbors_orth]
  unfold Adj
  constructor
  · rintro ⟨h1, h2, h3⟩
    exact ⟨hr, hc, h1, h2, by tauto⟩
  · rintro ⟨_, _, h3, h4, h5⟩
    exact ⟨h3, h4, by tauto⟩

theorem neighbors_orth_nodup (H W r c : Nat) : (neighbors_orth H W r c).Nodup := by
  unfold neighbors_orth
  simp only [List.filterMap_cons, List.filterMap_nil]
  split_ifs <;> simp_all [Prod.ext_iff] <;> omega

/-! ## White connectivity of a mask -/

/-- `p` is an in-bounds white cell of the mask `m`. -/
def WhiteAt (m : List (List Nat)) (H W : Nat) (p : Cell) : Prop :=
  p.1 < H ∧ p.2 < W ∧ getRC m p.1 p.2 = 0

/-- One connectivity step: orthogonal adjacency between two white cells. -/
def WStep (m : List (List Nat)) (H W : Nat) (p q : Cell) : Prop :=
  WhiteAt m H W p ∧ WhiteAt m H W q ∧ Adj H W p q

/-- White connectivity: reflexive-transitive closure of `WStep`. -/
def Conn (m : List (List Nat)) (H W : Nat) (p q : Cell) : Prop :=
  Relation.ReflTransGen (WStep m H W) p q

theorem wstep_flip {m : List (List Nat)} {H W : Nat} {p q : Cell}
    (h : WStep m H W p q) : WStep m H W q p :=
  ⟨h.2.1, h.1, adj_flip h.2.2⟩

theorem Conn.trans {m : List (List Nat)} {H W : Nat} {p q s : Cell}
    (h1 : Conn m H W p q) (h2 : Conn m H W q s) : Conn m H W p s :=
  Relation.ReflTransGen.trans h1 h2

theorem conn_flip {m : List (List Nat)} {H W : Nat} {p q : Cell}
    (h : Conn m H W p q) : Conn m H W q p := by
  induction h with
  | refl => exact Relation.ReflTransGen.refl
  | tail _ hstep ih =>
    exact Relation.ReflTransGen.trans (Relation.ReflTransGen.single (wstep_flip hstep)) ih

theorem Conn.single {m : List (List Nat)} {H W : Nat} {p q : Cell}
    (h : WStep m H W p q) : Conn m H W p q :=
  Relation.ReflTransGen.single h

theorem Conn.white_right {m : List (List Nat)} {H W : Nat} {p q : Cell}
    (h : Conn m H W p q) (hp : WhiteAt m H W p) : WhiteAt m H W q := by
  induction h with
  | refl => exact hp
  | tail _ hstep _ => exact hstep.2.1

/-- The row-major-least cell of its white component. -/
def IsLeader (m : List (List Nat)) (H W : Nat) (p : Cell) : Prop :=
  WhiteAt m H W p ∧ ∀ q, Conn m H W q p → ordRM W p ≤ ordRM W q

/-! ## The board as a finite set -/

theorem length_cellsRM (H W : Nat) : (cellsRM H W).length = H * W := by
  unfold cellsRM
  induction H with
  | zero => simp
  | succ h ih =>
    rw [List.range_succ, List.flatMap_append]
    simp only [List.length_append, ih, List.flatMap_cons, List.flatMap_nil,
      List.append_nil, List.length_map, List.length_range]
    rw [Nat.succ_mul]

theorem card_le_board {H W : Nat} {v : Finset Cell}
    (h : ∀ p ∈ v, p.1 < H ∧ p.2 < W) : v.card ≤ H * W := by
  have hsub : v ⊆ (cellsRM H W).toFinset := by
    intro p hp
    rw [List.mem_toFinset, mem_cellsRM]
    exact h p hp
  calc v.card ≤ (cellsRM H W).toFinset.card := Finset.card_le_card hsub
    _ = (cellsRM H W).length := by
        rw [List.toFinset_card_of_nodup (cellsRM_nodup H W)]
    _ = H * W := length_cellsRM H W

/-! ## Correctness of the BFS marking loop -/

/-- Characterisation of the neighbour-enqueueing fold of one BFS round: with a
duplicate-free neighbour list, the white not-yet-visited neighbours (judged
against the visited set at the start of the round) are appended to the queue
and inserted into the visited set. -/
theorem bfs_fold (m : List (List Nat)) :
    ∀ (ns : List Cell), ns.Nodup → ∀ (q : List Cell) (v : Finset Cell),
      ns.foldl (fun (a : List Cell × Finset Cell) n =>
          if getRC m n.1 n.2 = 0 ∧ n ∉ a.2 then (a.1 ++ [n], insert n a.2) else a) (q, v)
        = (q ++ ns.filter (fun n => decide (getRC m n.1 n.2 = 0 ∧ n ∉ v)),
           v ∪ (ns.filter (fun n => decide (getRC m n.1 n.2 = 0 ∧ n ∉ v))).toFinset) := by
  intro ns
  induction ns with
  | nil => intro _ q v; simp
  | cons n ns ih =>
    intro hnd q v
    have hn : n ∉ ns := (List.nodup_cons.1 hnd).1
    have htl : ns.Nodup := (List.nodup_cons.1 hnd).2
    by_cases hw : getRC m n.1 n.2 = 0 ∧ n ∉ v
    · rw [List.foldl_cons, if_pos hw, ih htl]
      have hfc : ns.filter (fun x => decide (getRC m x.1 x.2 = 0 ∧ x ∉ insert n v))
          = ns.filter (fun x => decide (getRC m x.1 x.2 = 0 ∧ x ∉ v)) := by
        refine List.filter_congr ?_
        intro x hx
        have hxn : x ≠ n := fun he => hn (he ▸ hx)
        simp [Finset.mem_insert, hxn]
      rw [hfc, List.filter_cons_of_pos (by simpa using hw)]
      refine Prod.ext ?_ ?_
      · simp
      · simp only [List.toFinset_cons, Finset.union_insert, Finset.insert_union]
    · rw [List.foldl_cons, if_neg hw, ih htl]
      rw [List.filter_cons_of_neg (by simpa using hw)]

/-- Correctness of the BFS while-loop: given enough fuel, a queue of white
marked cells, an in-bounds marked set that is step-closed outside the queue,
the loop marks exactly the old set plus everything white-connected to the
queue. -/
theorem bfs_spec (m : List (List Nat)) (H W : Nat) :
    ∀ (fuel : Nat) (queue : List Cell) (visited : Finset Cell),
      (∀ p ∈ queue, p ∈ visited) →
      (∀ p ∈ queue, WhiteAt m H W p) →
      (∀ p ∈ visited, p.1 < H ∧ p.2 < W) →
      (∀ v ∈ visited, v ∉ queue → ∀ n, WStep m H W v n → n ∈ visited) →
      queue.length + (H * W - visited.card) ≤ fuel →
      ∀ x, x ∈ bfs m H W fuel queue visited ↔
        (x ∈ visited ∨ ∃ p ∈ queue, Conn m H W p x) := by
  intro fuel
  induction fuel with
  | zero =>
    intro queue visited hq hqw hb hcl hfuel x
    have hq0 : queue = [] := by
      cases queue with
      | nil => rfl
      | cons a t => simp at hfuel
    subst hq0
    simp [bfs]
  | succ fuel ih =>
    intro queue visited hq hqw hb hcl hfuel x
    cases queue with
    | nil => simp [bfs]
    | cons p rest =>
      have hpv : p ∈ visited := hq p (List.mem_cons_self p rest)
      have hpw : WhiteAt m H W p := hqw p (List.mem_cons_self p rest)
      have hpb : p.1 < H ∧ p.2 < W := hb p hpv
      set N := (neighbors_orth H W p.1 p.2).filter
        (fun n => decide (getRC m n.1 n.2 = 0 ∧ n ∉ visited)) with hN
      have hNmem : ∀ n ∈ N, n ∈ neighbors_orth H W p.1 p.2 ∧
          getRC m n.1 n.2 = 0 ∧ n ∉ visited := by
        intro n hn
        rw [hN, List.mem_filter] at hn
        exact ⟨hn.1, by simpa using hn.2⟩
      have hNw : ∀ n ∈ N, WhiteAt m H W n := by
        intro n hn
        obtain ⟨hmem, hw, _⟩ := hNmem n hn
        have := mem_neighbors_orth.1 hmem
        exact ⟨this.1, this.2.1, hw⟩
      have hNstep : ∀ n ∈ N, WStep m H W p n := by
        intro n hn
        obtain ⟨hmem, hw, _⟩ := hNmem n hn
        exact ⟨hpw, hNw n hn, (mem_neighbors_orth_adj hpb.1 hpb.2).1 hmem⟩
      have hNnd : N.Nodup := (neighbors_orth_nodup H W p.1 p.2).filter _
      have hNdisj : Disjoint visited N.toFinset := by
        rw [Finset.disjoint_right]
        intro a ha
        rw [List.mem_toFinset] at ha
        exact (hNmem a ha).2.2
      have hstep_from_p : ∀ n, WStep m H W p n → n ∈ visited ∨ n ∈ N := by
        intro n hstep
        have hnmem : n ∈ neighbors_orth H W p.1 p.2 :=
          (mem_neighbors_orth_adj hpb.1 hpb.2).2 hstep.2.2
        by_cases hnv : n ∈ visited
        · exact Or.inl hnv
        · refine Or.inr ?_
          rw [hN, List.mem_filter]
          exact ⟨hnmem, by simp [hstep.2.1.2.2, hnv]⟩
      have hrw : bfs m H W (fuel + 1) (p :: rest) visited
          = bfs m H W fuel (rest ++ N) (visited ∪ N.toFinset) := by
        simp only [bfs]
        rw [bfs_fold m _ (neighbors_orth_nodup H W p.1 p.2) rest visited, ← hN]
      rw [hrw]
      have hcard : (visited ∪ N.toFinset).card = visited.card + N.length := by
        rw [Finset.card_union_of_disjoint hNdisj, List.toFinset_card_of_nodup hNnd]
      have hbounds' : ∀ q ∈ visited ∪ N.toFinset, q.1 < H ∧ q.2 < W := by
        intro q hq'
        rcases Finset.mem_union.1 hq' with h | h
        · exact hb q h
        · rw [List.mem_toFinset] at h
          exact ⟨(hNw q h).1, (hNw q h).2.1⟩
      have hcardle : (visited ∪ N.toFinset).card ≤ H * W := card_le_board hbounds'
      have main := ih (rest ++ N) (visited ∪ N.toFinset)
        (by
          intro a ha
          rcases List.mem_append.1 ha with h | h
          · exact Finset.mem_union_left _ (hq a (List.mem_cons_of_mem p h))
          · exact Finset.mem_union_right _ (List.mem_toFinset.2 h))
        (by
          intro a ha
          rcases List.mem_append.1 ha with h | h
          · exact hqw a (List.mem_cons_of_mem p h)
          · exact hNw a h)
        hbounds'
        (by
          intro v hv hvq n hstep
          rcases Finset.mem_union.1 hv with h | h
          · by_cases hvp : v = p
            · subst hvp
              rcases hstep_from_p n hstep with h' | h'
              · exact Finset.mem_union_left _ h'
              · exact Finset.mem_union_right _ (List.mem_toFinset.2 h')
            · have hvrest : v ∉ p :: rest := by
                intro hmem
                rcases List.mem_cons.1 hmem with h' | h'
                · exact hvp h'
                · exact hvq (List.mem_append.2 (Or.inl h'))
              exact Finset.mem_union_left _ (hcl v h hvrest n hstep)
          · exact absurd (List.mem_append.2 (Or.inr (List.mem_toFinset.1 h))) hvq)
        (by
          rw [hcard, List.length_append]
          simp only [List.length_cons] at hfuel
          omega)
        x
      rw [main]
      constructor
      · rintro (h | ⟨z, hz, hconn⟩)
        · rcases Finset.mem_union.1 h with h | h
          · exact Or.inl h
          · rw [List.mem_toFinset] at h
            exact Or.inr ⟨p, List.mem_cons_self p rest, Conn.single (hNstep _ h)⟩
        · rcases List.mem_append.1 hz with h | h
          · exact Or.inr ⟨z, List.mem_cons_of_mem p h, hconn⟩
          · exact Or.inr ⟨p, List.mem_cons_self p rest,
              (Conn.single (hNstep _ h)).trans hconn⟩
      · rintro (h | ⟨z, hz, hconn⟩)
        · exact Or.inl (Finset.mem_union_left _ h)
        · rcases List.mem_cons.1 hz with hzp | hzr
          · -- walk the path from `p`, staying inside the invariant set
            rw [hzp] at hconn
            clear main hz
            induction hconn with
            | refl => exact Or.inl (Finset.mem_union_left _ hpv)
            | @tail y x' hzy hstep ihy =>
              rcases ihy with hy | ⟨w, hw, hwc⟩
              · rcases Finset.mem_union.1 hy with hy | hy
                · by_cases hyp : y = p
                  · subst hyp
                    rcases hstep_from_p x' hstep with h' | h'
                    · exact Or.inl (Finset.mem_union_left _ h')
                    · exact Or.inr ⟨x', List.mem_append.2 (Or.inr h'),
                        Relation.ReflTransGen.refl⟩
                  · by_cases hyr : y ∈ rest
                    · exact Or.inr ⟨y, List.mem_append.2 (Or.inl hyr), Conn.single hstep⟩
                    · have hynq : y ∉ p :: rest := by
                        intro hmem
                        rcases List.mem_cons.1 hmem with h' | h'
                        exacts [hyp h', hyr h']
                      exact Or.inl (Finset.mem_union_left _ (hcl y hy hynq x' hstep))
                · rw [List.mem_toFinset] at hy
                  exact Or.inr ⟨y, List.mem_append.2 (Or.inr hy), Conn.single hstep⟩
              · exact Or.inr ⟨w, hw, hwc.tail hstep⟩
          · exact Or.inr ⟨z, List.mem_append.2 (Or.inl hzr), hconn⟩

/-! ## The component count counts the leaders -/

theorem conn_white_or_eq {m : List (List Nat)} {H W : Nat} {p q : Cell}
    (h : Conn m H W p q) : p = q ∨ WhiteAt m H W p := by
  rcases Relation.ReflTransGen.cases_head h with h' | ⟨c, hstep, _⟩
  · exact Or.inl h'
  · exact Or.inr hstep.1

/-- Invariant of the outer scanning fold: after processing the prefix `pre` of
the row-major enumeration, the counter holds the number of leaders in `pre`
and the visited set holds exactly the cells white-connected to some white cell
of `pre`; processing the remaining suffix therefore produces the total number
of leaders. -/
theorem count_fold_spec (m : List (List Nat)) (H W : Nat) :
    ∀ (suf pre : List Cell), cellsRM H W = pre ++ suf →
      ∀ (k : Nat) (vis : Finset Cell),
      (∀ x, x ∈ vis ↔ ∃ q ∈ pre, WhiteAt m H W q ∧ Conn m H W q x) →
      k = {q | IsLeader m H W q ∧ q ∈ pre}.ncard →
      (suf.foldl (fun (a : Nat × Finset Cell) p =>
          if getRC m p.1 p.2 = 0 ∧ p ∉ a.2 then
            (a.1 + 1, bfs m H W (H * W + 1) [p] (insert p a.2))
          else a) (k, vis)).1
        = {q | IsLeader m H W q}.ncard := by
  intro suf
  induction suf with
  | nil =>
    intro pre hsplit k vis hvis hk
    simp only [List.foldl_nil]
    rw [hk]
    congr 1
    ext q
    simp only [Set.mem_setOf_eq, and_iff_left_iff_imp]
    intro hq
    have : q ∈ cellsRM H W := mem_cellsRM.2 ⟨hq.1.1, hq.1.2.1⟩
    rwa [hsplit, List.append_nil] at this
  | cons p suf ihsuf =>
    intro pre hsplit k vis hvis hk
    have hpcells : p ∈ cellsRM H W := by
      rw [hsplit]
      exact List.mem_append.2 (Or.inr (List.mem_cons_self p suf))
    have hpb : p.1 < H ∧ p.2 < W := mem_cellsRM.1 hpcells
    have hpw := cellsRM_pairwise H W
    rw [hsplit] at hpw
    have hcross : ∀ a ∈ pre, ∀ b ∈ p :: suf, ordRM W a < ordRM W b :=
      (List.pairwise_append.1 hpw).2.2
    have hsuf_gt : ∀ b ∈ suf, ordRM W p < ordRM W b :=
      (List.pairwise_cons.1 (List.pairwise_append.1 hpw).2.1).1
    have hnodup := cellsRM_nodup H W
    rw [hsplit] at hnodup
    have hpnotpre : p ∉ pre := by
      intro hmem
      exact (List.disjoint_of_nodup_append hnodup) hmem (List.mem_cons_self p suf)
    have hsplit' : cellsRM H W = (pre ++ [p]) ++ suf := by
      rw [hsplit, List.append_assoc, List.singleton_append]
    rw [List.foldl_cons]
    by_cases hcond : getRC m p.1 p.2 = 0 ∧ p ∉ vis
    · -- a fresh white cell: `p` is a leader and BFS marks its whole component
      have hpwhite : WhiteAt m H W p := ⟨hpb.1, hpb.2, hcond.1⟩
      have hpleader : IsLeader m H W p := by
        refine ⟨hpwhite, ?_⟩
        intro q hq
        rcases conn_white_or_eq hq with rfl | hqw
        · exact le_refl _
        · have hqcells : q ∈ cellsRM H W := mem_cellsRM.2 ⟨hqw.1, hqw.2.1⟩
          rw [hsplit] at hqcells
          rcases List.mem_append.1 hqcells with hqpre | hqps
          · exact absurd ((hvis p).2 ⟨q, hqpre, hqw, hq⟩) hcond.2
          · rcases List.mem_cons.1 hqps with rfl | hqsuf
            · exact le_refl _
            · exact le_of_lt (hsuf_gt q hqsuf)
      rw [if_pos hcond]
      -- the new visited set via BFS correctness
      have hvis_bounds : ∀ x ∈ vis, x.1 < H ∧ x.2 < W := by
        intro x hx
        obtain ⟨q, _, hqw, hqc⟩ := (hvis x).1 hx
        have := hqc.white_right hqw
        exact ⟨this.1, this.2.1⟩
      have hbfs := bfs_spec m H W (H * W + 1) [p] (insert p vis)
        (by intro a ha; rw [List.mem_singleton] at ha; subst ha; exact Finset.mem_insert_self _ _)
        (by intro a ha; rw [List.mem_singleton] at ha; subst ha; exact hpwhite)
        (by
          intro x hx
          rcases Finset.mem_insert.1 hx with rfl | hx
          · exact hpb
          · exact hvis_bounds x hx)
        (by
          intro v hv hvq n hstep
          rcases Finset.mem_insert.1 hv with rfl | hv
          · exact absurd (List.mem_singleton.2 rfl) hvq
          · obtain ⟨q, hqpre, hqw, hqc⟩ := (hvis v).1 hv
            exact Finset.mem_insert_of_mem ((hvis n).2 ⟨q, hqpre, hqw, hqc.tail hstep⟩))
        (by
          have : (insert p vis).card ≤ H * W := card_le_board (by
            intro x hx
            rcases Finset.mem_insert.1 hx with rfl | hx
            · exact hpb
            · exact hvis_bounds x hx)
          simp only [List.length_singleton]
          omega)
      refine ihsuf (pre ++ [p]) hsplit' (k + 1) _ ?_ ?_
      · intro x
        rw [hbfs x]
        constructor
        · rintro (hx | ⟨z, hz, hconn⟩)
          · rcases Finset.mem_insert.1 hx with hxp | hx
            · exact ⟨p, List.mem_append.2 (Or.inr (List.mem_singleton.2 rfl)), hpwhite,
                by rw [hxp]; exact Relation.ReflTransGen.refl⟩
            · obtain ⟨q, hqpre, hqw, hqc⟩ := (hvis x).1 hx
              exact ⟨q, List.mem_append.2 (Or.inl hqpre), hqw, hqc⟩
          · rw [List.mem_singleton] at hz
            exact ⟨p, List.mem_append.2 (Or.inr (List.mem_singleton.2 rfl)), hpwhite,
              hz ▸ hconn⟩
        · rintro ⟨q, hq, hqw, hqc⟩
          rcases List.mem_append.1 hq with hqpre | hqp
          · exact Or.inl (Finset.mem_insert_of_mem ((hvis x).2 ⟨q, hqpre, hqw, hqc⟩))
          · rw [List.mem_singleton] at hqp
            exact Or.inr ⟨p, List.mem_singleton.2 rfl, hqp ▸ hqc⟩
      · have hset : {q | IsLeader m H W q ∧ q ∈ pre ++ [p]}
            = insert p {q | IsLeader m H W q ∧ q ∈ pre} := by
          ext q
          simp only [Set.mem_setOf_eq, Set.mem_insert_iff, List.mem_append,
            List.mem_singleton]
          constructor
          · rintro ⟨hl, hqpre | rfl⟩
            · exact Or.inr ⟨hl, hqpre⟩
            · exact Or.inl rfl
          · rintro (rfl | ⟨hl, hqpre⟩)
            · exact ⟨hpleader, Or.inr rfl⟩
            · exact ⟨hl, Or.inl hqpre⟩
        rw [hset, hk]
        rw [Set.ncard_insert_of_not_mem (fun h => hpnotpre h.2)
          (Set.Finite.subset (List.finite_toSet pre) (fun q hq => hq.2))]
    · -- `p` is black, or already visited: nothing changes
      rw [if_neg hcond]
      refine ihsuf (pre ++ [p]) hsplit' k vis ?_ ?_
      · intro x
        rw [hvis x]
        constructor
        · rintro ⟨q, hqpre, hqw, hqc⟩
          exact ⟨q, List.mem_append.2 (Or.inl hqpre), hqw, hqc⟩
        · rintro ⟨q, hq, hqw, hqc⟩
          rcases List.mem_append.1 hq with hqpre | hqp
          · exact ⟨q, hqpre, hqw, hqc⟩
          · rw [List.mem_singleton] at hqp
            -- `q = p` is white here, so `p ∈ vis`; its witness connects to `x`
            have hpvis : p ∈ vis := by
              by_contra hpv
              exact hcond ⟨hqp ▸ hqw.2.2, hpv⟩
            obtain ⟨q', hq'pre, hq'w, hq'c⟩ := (hvis p).1 hpvis
            exact ⟨q', hq'pre, hq'w, hq'c.trans (hqp ▸ hqc)⟩
      · rw [hk]
        congr 1
        ext q
        simp only [Set.mem_setOf_eq, List.mem_append, List.mem_singleton]
        constructor
        · rintro ⟨hl, hqpre⟩
          exact ⟨hl, Or.inl hqpre⟩
        · rintro ⟨hl, hqpre | hqp⟩
          · exact ⟨hl, hqpre⟩
          · -- a visited or black `p` is never a leader
            exfalso
            rw [hqp] at hl
            by_cases hw : getRC m p.1 p.2 = 0
            · have hpvis : p ∈ vis := by
                by_contra hpv
                exact hcond ⟨hw, hpv⟩
              obtain ⟨q', hq'pre, hq'w, hq'c⟩ := (hvis p).1 hpvis
              have hle := hl.2 q' hq'c
              have hlt := hcross q' hq'pre p (List.mem_cons_self p suf)
              omega
            · exact hw hl.1.2.2

/-- The component count of a mask equals the number of its component leaders. -/
theorem count_eq_ncard_leaders (m : List (List Nat)) :
    count_connected_components m
      = {p | IsLeader m m.length (m.getD 0 []).length p}.ncard := by
  have h := count_fold_spec m m.length (m.getD 0 []).length
    (cellsRM m.length (m.getD 0 []).length) [] (by simp) 0 ∅ (by simp) (by simp)
  simpa [count_connected_components] using h

/-- Counting monotonicity: if every white cell of `B` is white in `A` and every
white cell of `A` is `A`-connected to some white cell of `B`, then `A` has at
most as many white components as `B`. -/
theorem ncard_leaders_mono (A B : List (List Nat)) (H W : Nat)
    (hsub : ∀ p, WhiteAt B H W p → WhiteAt A H W p)
    (hmeet : ∀ p, WhiteAt A H W p → ∃ q, WhiteAt B H W q ∧ Conn A H W p q) :
    {p | IsLeader A H W p}.ncard ≤ {p | IsLeader B H W p}.ncard := by
  classical
  have hstepBA : ∀ p q, WStep B H W p q → WStep A H W p q := fun p q h =>
    ⟨hsub p h.1, hsub q h.2.1, h.2.2⟩
  have hconnBA : ∀ p q, Conn B H W p q → Conn A H W p q := fun p q h =>
    Relation.ReflTransGen.mono (fun {a b} hab => hstepBA a b hab) h
  have key : ∀ p, WhiteAt A H W p → ∃ l, IsLeader B H W l ∧ Conn A H W p l := by
    intro p hp
    obtain ⟨q, hqB, hpq⟩ := hmeet p hp
    set S := (cellsRM H W).toFinset.filter (fun x => WhiteAt B H W x ∧ Conn B H W q x)
      with hS
    have hqS : q ∈ S := by
      rw [hS, Finset.mem_filter, List.mem_toFinset, mem_cellsRM]
      exact ⟨⟨hqB.1, hqB.2.1⟩, hqB, Relation.ReflTransGen.refl⟩
    obtain ⟨l, hlS, hlmin⟩ := Finset.exists_min_image S (ordRM W) ⟨q, hqS⟩
    rw [hS, Finset.mem_filter] at hlS
    obtain ⟨-, hlB, hql⟩ := hlS
    refine ⟨l, ⟨hlB, ?_⟩, hpq.trans (hconnBA q l hql)⟩
    intro x hxl
    rcases conn_white_or_eq hxl with hxe | hxB
    · exact le_of_eq (by rw [hxe])
    · have hxS : x ∈ S := by
        rw [hS, Finset.mem_filter, List.mem_toFinset, mem_cellsRM]
        exact ⟨⟨hxB.1, hxB.2.1⟩, hxB, hql.trans (conn_flip hxl)⟩
      exact hlmin x hxS
  set f : Cell → Cell := fun a =>
    if h : WhiteAt A H W a then Classical.choose (key a h) else a with hf
  refine Set.ncard_le_ncard_of_injOn f ?_ ?_ ?_
  · intro a ha
    rw [Set.mem_setOf_eq] at ha ⊢
    rw [hf]
    simp only [dif_pos ha.1]
    exact (Classical.choose_spec (key a ha.1)).1
  · intro a1 h1 a2 h2 heq
    rw [Set.mem_setOf_eq] at h1 h2
    rw [hf] at heq
    simp only [dif_pos h1.1, dif_pos h2.1] at heq
    obtain ⟨hl1, hc1⟩ := Classical.choose_spec (key a1 h1.1)
    obtain ⟨hl2, hc2⟩ := Classical.choose_spec (key a2 h2.1)
    rw [heq] at hc1
    have h12 : Conn A H W a1 a2 := hc1.trans (conn_flip hc2)
    have hle1 : ordRM W a2 ≤ ordRM W a1 := h2.2 a1 h12
    have hle2 : ordRM W a1 ≤ ordRM W a2 := h1.2 a2 (conn_flip h12)
    exact ordRM_inj h1.1.2.1 h2.1.2.1 (le_antisymm hle2 hle1)
  · exact Set.Finite.subset (List.finite_toSet (cellsRM H W))
      (fun p hp => mem_cellsRM.2 ⟨hp.1.1, hp.1.2.1⟩)

/-! ## The two masks built by the solver -/

theorem getRC_map_map {H W : Nat} (f : Nat → Nat → Nat) {r c : Nat} (hr : r < H) (hc : c < W) :
    getRC ((List.range H).map fun r => (List.range W).map fun c => f r c) r c = f r c := by
  have h1 : ((List.range H).map fun r => (List.range W).map fun c => f r c).getD r []
      = (List.range W).map fun c => f r c := by
    rw [getD_eq_getElem _ _ _ (by simpa using hr)]
    simp
  unfold getRC
  rw [h1, getD_eq_getElem _ _ _ (by simpa using hc)]
  simp

theorem length_map_map {H W : Nat} (f : Nat → Nat → Nat) :
    ((List.range H).map fun r => (List.range W).map fun c => f r c).length = H := by
  simp

theorem width_map_map {H W : Nat} (f : Nat → Nat → Nat) (hH : 0 < H) :
    (((List.range H).map fun r => (List.range W).map fun c => f r c).getD 0 []).length
      = W := by
  rw [getD_eq_getElem _ _ _ (by simpa using hH)]
  simp

theorem whiteAt_binary_grid {H W : Nat} {st : LState} {p : Cell} :
    WhiteAt (binary_grid H W st) H W p ↔
      p.1 < H ∧ p.2 < W ∧ (getCell st p.1 p.2 = some 0 ∨ getCell st p.1 p.2 = none) := by
  unfold WhiteAt binary_grid
  constructor
  · rintro ⟨h1, h2, h3⟩
    rw [getRC_map_map _ h1 h2] at h3
    split_ifs at h3 with ha hb
    · exact ⟨h1, h2, Or.inl ha⟩
    · exact ⟨h1, h2, Or.inr hb⟩
  · rintro ⟨h1, h2, h3⟩
    refine ⟨h1, h2, ?_⟩
    rw [getRC_map_map _ h1 h2]
    rcases h3 with h3 | h3 <;> simp [h3]

theorem whiteAt_white_map {H W : Nat} {st : LState} {p : Cell} :
    WhiteAt (white_map H W st) H W p ↔
      p.1 < H ∧ p.2 < W ∧ getCell st p.1 p.2 = some 0 := by
  unfold WhiteAt white_map
  constructor
  · rintro ⟨h1, h2, h3⟩
    rw [getRC_map_map _ h1 h2] at h3
    split_ifs at h3 with ha
    exact ⟨h1, h2, ha⟩
  · rintro ⟨h1, h2, h3⟩
    refine ⟨h1, h2, ?_⟩
    rw [getRC_map_map _ h1 h2, if_pos h3]

/-- Component-count monotonicity stated on the counts computed by the code;
`A` and `B` are `H × W` masks. -/
theorem count_mono {A B : List (List Nat)} {H W : Nat}
    (hAl : A.length = H) (hAw : (A.getD 0 []).length = W)
    (hBl : B.length = H) (hBw : (B.getD 0 []).length = W)
    (hsub : ∀ p, WhiteAt B H W p → WhiteAt A H W p)
    (hmeet : ∀ p, WhiteAt A H W p → ∃ q, WhiteAt B H W q ∧ Conn A H W p q) :
    count_connected_components A ≤ count_connected_components B := by
  rw [count_eq_ncard_leaders, count_eq_ncard_leaders, hAl, hAw, hBl, hBw]
  exact ncard_leaders_mono A B H W hsub hmeet

/-- Admissibility core: a fully-decided extension `t` of `st` that satisfies the
no-adjacent-removed rule keeps at least one white cell inside every optimistic
white component of `st` (each component either contains a decided kept cell, or
has two adjacent cells that cannot both be removed, or is a single cell whose
neighbours are all removed and which therefore must stay kept — the last step
uses that every cell has an orthogonal neighbour, true once the board has at
least two rows).  Hence the optimistic count bounds the exact count of the
extension from below. -/
theorem optimistic_le_exact {H W : Nat} {st t : LState} (hH : 2 ≤ H)
    (hext : ∀ r, r < H → ∀ c, c < W → ∀ v, getCell st r c = some v → getCell t r c = some v)
    (hfull : ∀ r, r < H → ∀ c, c < W → getCell t r c = some 0 ∨ getCell t r c = some 1)
    (hadj : ∀ p q, Adj H W p q →
      ¬(getCell t p.1 p.2 = some 1 ∧ getCell t q.1 q.2 = some 1)) :
    count_connected_components (binary_grid H W st)
      ≤ count_connected_components (white_map H W t) := by
  have hH0 : 0 < H := by omega
  have hbl : (binary_grid H W st).length = H := length_map_map _
  have hbw : ((binary_grid H W st).getD 0 []).length = W := width_map_map _ hH0
  have hwl : (white_map H W t).length = H := length_map_map _
  have hww : ((white_map H W t).getD 0 []).length = W := width_map_map _ hH0
  refine count_mono hbl hbw hwl hww ?_ ?_
  · -- every white cell of the extension is optimistically white
    intro p hpB
    rw [whiteAt_white_map] at hpB
    rw [whiteAt_binary_grid]
    obtain ⟨h1, h2, h3⟩ := hpB
    refine ⟨h1, h2, ?_⟩
    rcases hgc : getCell st p.1 p.2 with _ | v
    · exact Or.inr rfl
    · have h4 := hext p.1 h1 p.2 h2 v hgc
      have h5 : v = 0 := Option.some.inj (h4.symm.trans h3)
      exact Or.inl (by rw [h5])
  · -- every optimistic component keeps a white cell of the extension
    intro p hpA
    by_cases hex : ∃ q, WhiteAt (white_map H W t) H W q ∧ Conn (binary_grid H W st) H W p q
    · exact hex
    · exfalso
      -- then the whole optimistic component of `p` would be removed in `t`
      have hall : ∀ q, Conn (binary_grid H W st) H W p q →
          WhiteAt (binary_grid H W st) H W q → getCell t q.1 q.2 = some 1 := by
        intro q hconn hqA
        rcases hfull q.1 hqA.1 q.2 hqA.2.1 with h | h
        · exact absurd ⟨q, whiteAt_white_map.2 ⟨hqA.1, hqA.2.1, h⟩, hconn⟩ hex
        · exact h
      have h1 : p.1 < H := hpA.1
      have h2 : p.2 < W := hpA.2.1
      have htp : getCell t p.1 p.2 = some 1 := hall p Relation.ReflTransGen.refl hpA
      have contra : ∀ nb : Cell, Adj H W p nb → False := by
        intro nb hadjpn
        by_cases hnw : WhiteAt (binary_grid H W st) H W nb
        · have htn : getCell t nb.1 nb.2 = some 1 :=
            hall nb (Conn.single ⟨hpA, hnw, hadjpn⟩) hnw
          exact hadj p nb hadjpn ⟨htp, htn⟩
        · have hnb1 : nb.1 < H := hadjpn.2.2.1
          have hnb2 : nb.2 < W := hadjpn.2.2.2.1
          rcases hgc : getCell st nb.1 nb.2 with _ | v
          · exact hnw (whiteAt_binary_grid.2 ⟨hnb1, hnb2, Or.inr hgc⟩)
          · have hv0 : v ≠ 0 := by
              intro h0
              rw [h0] at hgc
              exact hnw (whiteAt_binary_grid.2 ⟨hnb1, hnb2, Or.inl hgc⟩)
            have h4 := hext nb.1 hnb1 nb.2 hnb2 v hgc
            rcases hfull nb.1 hnb1 nb.2 hnb2 with h | h
            · exact hv0 (Option.some.inj (h4.symm.trans h))
            · exact hadj p nb hadjpn ⟨htp, h⟩
      by_cases hlt : p.1 + 1 < H
      · exact contra (p.1 + 1, p.2) ⟨h1, h2, hlt, h2, Or.inr ⟨rfl, Or.inl rfl⟩⟩
      · exact contra (p.1 - 1, p.2) ⟨h1, h2, by omega, h2, Or.inr ⟨rfl, Or.inr (by omega)⟩⟩

/-! ## The Boolean checkers, propositionally -/

theorem extendsState_iff {H W : Nat} {st t : LState} :
    extendsState H W st t = true ↔
      ∀ r, r < H → ∀ c, c < W → ∀ v, getCell st r c = some v → getCell t r c = some v := by
  unfold extendsState
  rw [List.all_eq_true]
  constructor
  · intro h r hr c hc v hv
    have h' := h (r, c) (mem_cellsRM.2 ⟨hr, hc⟩)
    simp only [Bool.or_eq_true, beq_iff_eq] at h'
    rcases h' with h' | h'
    · rw [hv] at h'
      cases h'
    · rw [h', hv]
  · intro h p hp
    obtain ⟨hr, hc⟩ := mem_cellsRM.1 hp
    simp only [Bool.or_eq_true, beq_iff_eq]
    rcases hgc : getCell st p.1 p.2 with _ | v
    · exact Or.inl rfl
    · exact Or.inr (h p.1 hr p.2 hc v hgc)

theorem fullyDecided_iff {H W : Nat} {t : LState} :
    fullyDecided H W t = true ↔
      ∀ r, r < H → ∀ c, c < W → getCell t r c = some 0 ∨ getCell t r c = some 1 := by
  unfold fullyDecided
  rw [List.all_eq_true]
  constructor
  · intro h r hr c hc
    have h' := h (r, c) (mem_cellsRM.2 ⟨hr, hc⟩)
    simpa only [Bool.or_eq_true, beq_iff_eq] using h'
  · intro h p hp
    obtain ⟨hr, hc⟩ := mem_cellsRM.1 hp
    simpa only [Bool.or_eq_true, beq_iff_eq] using h p.1 hr p.2 hc

theorem noTwoAdjacentRemoved_iff {H W : Nat} {st : LState} :
    noTwoAdjacentRemoved H W st = true ↔
      ∀ p q, Adj H W p q → ¬(getCell st p.1 p.2 = some 1 ∧ getCell st q.1 q.2 = some 1) := by
  unfold noTwoAdjacentRemoved
  rw [List.all_eq_true]
  constructor
  · intro h p q hadj hpq
    have hp : p ∈ cellsRM H W := mem_cellsRM.2 ⟨hadj.1, hadj.2.1⟩
    have h' := h p hp
    rw [List.all_eq_true] at h'
    have hq : q ∈ neighbors_orth H W p.1 p.2 :=
      (mem_neighbors_orth_adj hadj.1 hadj.2.1).2 (by
        obtain ⟨a, b⟩ := p
        exact hadj)
    have := h' q hq
    rw [hpq.1, hpq.2] at this
    simp at this
  · intro h p hp
    rw [List.all_eq_true]
    intro q hq
    obtain ⟨hr, hc⟩ := mem_cellsRM.1 hp
    have hadj : Adj H W p q := by
      have := (mem_neighbors_orth_adj hr hc).1 hq
      obtain ⟨a, b⟩ := p
      exact this
    have := h p q hadj
    by_cases h1 : getCell st p.1 p.2 = some 1 <;> by_cases h2 : getCell st q.1 q.2 = some 1 <;>
      simp [h1, h2] at this ⊢

theorem keptValuesUnique_iff {g : Grid} {H W : Nat} {st : LState} :
    keptValuesUnique g H W st = true ↔
      (∀ r, r < H → (rowWhiteVals g W st r).Nodup) ∧
      (∀ c, c < W → (colWhiteVals g H st c).Nodup) := by
  unfold keptValuesUnique
  rw [Bool.and_eq_true, List.all_eq_true, List.all_eq_true]
  constructor
  · intro h
    constructor
    · intro r hr
      simpa using h.1 r (List.mem_range.2 hr)
    · intro c hc
      simpa using h.2 c (List.mem_range.2 hc)
  · intro h
    constructor
    · intro r hr
      simpa using h.1 r (List.mem_range.1 hr)
    · intro c hc
      simpa using h.2 c (List.mem_range.1 hc)

theorem dimsOk_iff {H W : Nat} {st : LState} : dimsOk H W st = true ↔ Dims H W st := by
  unfold dimsOk Dims
  rw [Bool.and_eq_true, List.all_eq_true]
  constructor
  · intro h
    exact ⟨by simpa using h.1, fun row hrow => by simpa using h.2 row hrow⟩
  · intro h
    exact ⟨by simpa using h.1, fun row hrow => by simpa using h.2 row hrow⟩

theorem check_components_iff {H W : Nat} {M : Int} {st : LState} :
    check_components H W M st = true ↔
      (count_connected_components (binary_grid H W st) : Int) ≤ M := by
  unfold check_components
  exact decide_eq_true_iff

theorem valid_full_iff {H W : Nat} {M : Int} {st : LState} :
    valid_full H W M st = true ↔
      (count_connected_components (white_map H W st) : Int) ≤ M := by
  unfold valid_full
  exact decide_eq_true_iff

/-! ## Basic facts about the search primitives -/

theorem find_empty_some {H W : Nat} {st : LState} {r c : Nat}
    (h : find_empty H W st = some (r, c)) :
    r < H ∧ c < W ∧ getCell st r c = none := by
  unfold find_empty at h
  have hmem := List.mem_of_find?_eq_some h
  have hp := List.find?_some h
  obtain ⟨hr, hc⟩ := mem_cellsRM.1 hmem
  exact ⟨hr, hc, Option.isNone_iff_eq_none.1 (by simpa using hp)⟩

theorem find_empty_none {H W : Nat} {st : LState} (h : find_empty H W st = none) :
    ∀ r, r < H → ∀ c, c < W → getCell st r c ≠ none := by
  intro r hr c hc hnone
  unfold find_empty at h
  rw [List.find?_eq_none] at h
  exact h (r, c) (mem_cellsRM.2 ⟨hr, hc⟩) (by simpa using hnone)

theorem mem_allowed {H W : Nat} {st : LState} {r c : Nat} {v : Nat}
    (h : v ∈ allowed H W st r c) : v = 0 ∨ v = 1 := by
  unfold allowed at h
  split_ifs at h
  · simpa using h
  · exact Or.inl (by simpa using h)

theorem zero_mem_allowed (H W : Nat) (st : LState) (r c : Nat) :
    0 ∈ allowed H W st r c := by
  unfold allowed
  split_ifs <;> simp

theorem one_mem_allowed {H W : Nat} {st : LState} {r c : Nat}
    (h : ∀ n ∈ neighbors_orth H W r c, getCell st n.1 n.2 ≠ some 1) :
    1 ∈ allowed H W st r c := by
  unfold allowed
  rw [if_pos]
  · simp
  · rw [List.all_eq_true]
    intro n hn
    simpa using h n hn

/-- The loop body of `backtrack`: tentatively assign `v` to cell `(r, c)`,
validate, recurse if valid, then revert the cell to undecided. -/
def tryCell (g : Grid) (H W : Nat) (M need : Int) (fuel : Nat) (r c : Nat)
    (a : LState × List LState) (v : Nat) : LState × List LState :=
  let st1 := setCell a.1 r c (some v)
  let b := if valid_partial g H W st1 r c then backtrack g H W M need fuel st1 a.2
           else (st1, a.2)
  (setCell b.1 r c none, b.2)

theorem backtrack_succ (g : Grid) (H W : Nat) (M need : Int) (fuel : Nat) (st : LState)
    (sols : List LState) :
    backtrack g H W M need (fuel + 1) st sols =
      if 0 < need ∧ need ≤ (sols.length : Int) then (st, sols)
      else if check_components H W M st then
        match find_empty H W st with
        | none => (st, if valid_full H W M st then sols ++ [st] else sols)
        | some (r, c) =>
          (allowed H W st r c).foldl (tryCell g H W M need fuel r c) (st, sols)
      else (st, sols) := by
  rfl

theorem tryCell_eq (g : Grid) (H W : Nat) (M need : Int) (fuel : Nat) (r c : Nat)
    (a : LState × List LState) (v : Nat) :
    tryCell g H W M need fuel r c a v =
      ((setCell (if valid_partial g H W (setCell a.1 r c (some v)) r c then
          backtrack g H W M need fuel (setCell a.1 r c (some v)) a.2
        else (setCell a.1 r c (some v), a.2)).1 r c none),
       (if valid_partial g H W (setCell a.1 r c (some v)) r c then
          backtrack g H W M need fuel (setCell a.1 r c (some v)) a.2
        else (setCell a.1 r c (some v), a.2)).2) := by
  rfl

/-- Sibling-state restoration: `backtrack` always hands back the working state
it was given, whatever happened below (the revert-to-undecided of the source). -/
theorem backtrack_fst (g : Grid) (H W : Nat) (M need : Int) :
    ∀ (fuel : Nat) (st : LState) (sols : List LState),
      (backtrack g H W M need fuel st sols).1 = st := by
  intro fuel
  induction fuel with
  | zero => intro st sols; rfl
  | succ fuel ih =>
    intro st sols
    rw [backtrack_succ]
    by_cases h1 : 0 < need ∧ need ≤ (sols.length : Int)
    · rw [if_pos h1]
    · rw [if_neg h1]
      by_cases h2 : check_components H W M st = true
      · rw [if_pos h2]
        cases hfe : find_empty H W st with
        | none => rfl
        | some rc =>
          obtain ⟨r, c⟩ := rc
          obtain ⟨hr, hc, hrc⟩ := find_empty_some hfe
          have hfold : ∀ (vals : List Nat) (sols' : List LState),
              (vals.foldl (tryCell g H W M need fuel r c) (st, sols')).1 = st := by
            intro vals
            induction vals with
            | nil => intro sols'; rfl
            | cons v vals ihv =>
              intro sols'
              rw [List.foldl_cons]
              have hfst : (tryCell g H W M need fuel r c (st, sols') v).1 = st := by
                rw [tryCell_eq]
                split_ifs with hv
                · rw [ih]
                  exact setCell_setCell_none _ hrc
                · exact setCell_setCell_none _ hrc
              have heq : tryCell g H W M need fuel r c (st, sols') v
                  = (st, (tryCell g H W M need fuel r c (st, sols') v).2) :=
                Prod.ext hfst rfl
              rw [heq]
              exact ihv _
          exact hfold _ sols
      · rw [if_neg h2]

/-! ## Preservation of the two local rules along the search -/

/-- A state satisfying the two local puzzle rules (propositional form used for
the invariant of the search). -/
def Consistent (g : Grid) (H W : Nat) (st : LState) : Prop :=
  (∀ p q, Adj H W p q → ¬(getCell st p.1 p.2 = some 1 ∧ getCell st q.1 q.2 = some 1)) ∧
  (∀ r, r < H → (rowWhiteVals g W st r).Nodup) ∧
  (∀ c, c < W → (colWhiteVals g H st c).Nodup)

theorem setCell_noop_or_get (st : LState) (r c : Nat) (v : Option Nat) :
    setCell st r c v = st ∨ getCell (setCell st r c v) r c = v := by
  by_cases hr : r < st.length
  · by_cases hc : c < (st.getD r []).length
    · right
      unfold getCell setCell
      rw [getD_set_self st _ _ [] hr, getD_set_self _ _ _ _ hc]
    · left
      unfold setCell
      rw [List.set_eq_of_length_le (l := st.getD r []) (by omega), set_of_getD rfl]
  · left
    unfold setCell
    exact List.set_eq_of_length_le (by omega)

theorem rowWhiteVals_congr {g : Grid} {W : Nat} {st u : LState} {r : Nat}
    (h : ∀ col, col < W → (getCell st r col = some 0 ↔ getCell u r col = some 0)) :
    rowWhiteVals g W st r = rowWhiteVals g W u r := by
  unfold rowWhiteVals
  refine List.filterMap_congr ?_
  intro col hcol
  rw [List.mem_range] at hcol
  by_cases hw : getCell st r col = some 0
  · rw [if_pos hw, if_pos ((h col hcol).1 hw)]
  · rw [if_neg hw, if_neg (fun hw' => hw ((h col hcol).2 hw'))]

theorem colWhiteVals_congr {g : Grid} {H : Nat} {st u : LState} {c : Nat}
    (h : ∀ row, row < H → (getCell st row c = some 0 ↔ getCell u row c = some 0)) :
    colWhiteVals g H st c = colWhiteVals g H u c := by
  unfold colWhiteVals
  refine List.filterMap_congr ?_
  intro row hrow
  rw [List.mem_range] at hrow
  by_cases hw : getCell st row c = some 0
  · rw [if_pos hw, if_pos ((h row hrow).1 hw)]
  · rw [if_neg hw, if_neg (fun hw' => hw ((h row hrow).2 hw'))]

theorem adj_ne {H W : Nat} {p q : Cell} (h : Adj H W p q) : p ≠ q := by
  obtain ⟨-, -, -, -, h5⟩ := h
  intro he
  rw [he] at h5
  rcases h5 with ⟨-, h6 | h6⟩ | ⟨-, h6 | h6⟩ <;> omega

/-- Assigning an allowed value to an undecided cell and passing the partial
validation preserves the two local rules. -/
theorem consistent_preserved {g : Grid} {H W : Nat} {st : LState} {r c v : Nat}
    (hcons : Consistent g H W st) (hrc : getCell st r c = none)
    (hr : r < H) (hc : c < W) (hv : v = 0 ∨ v = 1)
    (hvp : valid_partial g H W (setCell st r c (some v)) r c = true) :
    Consistent g H W (setCell st r c (some v)) := by
  rcases setCell_noop_or_get st r c (some v) with hnoop | hget
  · rw [hnoop]
    exact hcons
  rcases hv with rfl | rfl
  · -- white assignment
    have hne1 : ¬getCell (setCell st r c (some 0)) r c = some 1 := by
      rw [hget]
      simp
    unfold valid_partial at hvp
    rw [if_neg hne1, Bool.and_eq_true, decide_eq_true_iff, decide_eq_true_iff] at hvp
    refine ⟨?_, ?_, ?_⟩
    · intro p q hadj hblack
      have hp : p ≠ (r, c) := by
        intro he
        rw [he] at hblack
        rw [hget] at hblack
        exact absurd hblack.1 (by simp)
      have hq : q ≠ (r, c) := by
        intro he
        rw [he] at hblack
        rw [hget] at hblack
        exact absurd hblack.2 (by simp)
      have hpne : p.1 ≠ r ∨ p.2 ≠ c := by
        by_contra hcontra
        push_neg at hcontra
        exact hp (Prod.ext hcontra.1 hcontra.2)
      have hqne : q.1 ≠ r ∨ q.2 ≠ c := by
        by_contra hcontra
        push_neg at hcontra
        exact hq (Prod.ext hcontra.1 hcontra.2)
      rw [getCell_setCell_ne _ hpne, getCell_setCell_ne _ hqne] at hblack
      exact hcons.1 p q hadj hblack
    · intro r' hr'
      by_cases hrr : r' = r
      · subst hrr
        exact hvp.1
      · rw [rowWhiteVals_congr (u := st) (fun col hcol => by
          rw [getCell_setCell_ne _ (Or.inl hrr)])]
        exact hcons.2.1 r' hr'
    · intro c' hc'
      by_cases hcc : c' = c
      · subst hcc
        exact hvp.2
      · rw [colWhiteVals_congr (u := st) (fun row hrow => by
          rw [getCell_setCell_ne _ (Or.inr hcc)])]
        exact hcons.2.2 c' hc'
  · -- black assignment
    unfold valid_partial at hvp
    rw [if_pos hget, List.all_eq_true] at hvp
    have hnb : ∀ n ∈ neighbors_orth H W r c,
        getCell (setCell st r c (some 1)) n.1 n.2 ≠ some 1 := by
      intro n hn
      have := hvp n hn
      simpa using this
    refine ⟨?_, ?_, ?_⟩
    · intro p q hadj hblack
      by_cases hp : p = (r, c)
      · have hq : q ≠ (r, c) := by
          intro he
          exact adj_ne hadj (hp.trans he.symm)
        have hadj' : Adj H W (r, c) q := by
          rw [hp] at hadj
          exact hadj
        exact hnb q ((mem_neighbors_orth_adj hr hc).2 hadj') hblack.2
      · by_cases hq : q = (r, c)
        · have hadj' : Adj H W (r, c) p := by
            rw [hq] at hadj
            exact adj_flip hadj
          exact hnb p ((mem_neighbors_orth_adj hr hc).2 hadj') hblack.1
        · have hpne : p.1 ≠ r ∨ p.2 ≠ c := by
            by_contra hcontra
            push_neg at hcontra
            exact hp (Prod.ext hcontra.1 hcontra.2)
          have hqne : q.1 ≠ r ∨ q.2 ≠ c := by
            by_contra hcontra
            push_neg at hcontra
            exact hq (Prod.ext hcontra.1 hcontra.2)
          rw [getCell_setCell_ne _ hpne, getCell_setCell_ne _ hqne] at hblack
          exact hcons.1 p q hadj hblack
    · intro r' hr'
      rw [rowWhiteVals_congr (u := st) (fun col hcol => ?_)]
      · exact hcons.2.1 r' hr'
      · by_cases he : r' = r ∧ col = c
        · rw [he.1, he.2, hget, hrc]
          simp
        · have : r' ≠ r ∨ col ≠ c := by tauto
          rw [getCell_setCell_ne _ this]
    · intro c' hc'
      rw [colWhiteVals_congr (u := st) (fun row hrow => ?_)]
      · exact hcons.2.2 c' hc'
      · by_cases he : row = r ∧ c' = c
        · rw [he.1, he.2, hget, hrc]
          simp
        · have : row ≠ r ∨ c' ≠ c := by tauto
          rw [getCell_setCell_ne _ this]

/-! ## Soundness of the collected solutions -/

/-- The collected solution list only ever grows (solutions are appended). -/
theorem backtrack_append (g : Grid) (H W : Nat) (M need : Int) :
    ∀ (fuel : Nat) (st : LState) (sols : List LState),
      ∃ ext, (backtrack g H W M need fuel st sols).2 = sols ++ ext := by
  intro fuel
  induction fuel with
  | zero => intro st sols; exact ⟨[], (List.append_nil sols).symm⟩
  | succ fuel ih =>
    intro st sols
    rw [backtrack_succ]
    by_cases h1 : 0 < need ∧ need ≤ (sols.length : Int)
    · rw [if_pos h1]
      exact ⟨[], (List.append_nil sols).symm⟩
    rw [if_neg h1]
    by_cases h2 : check_components H W M st = true
    · rw [if_pos h2]
      cases hfe : find_empty H W st with
      | none =>
        by_cases h3 : valid_full H W M st = true
        · rw [if_pos h3]
          exact ⟨[st], rfl⟩
        · rw [if_neg h3]
          exact ⟨[], (List.append_nil sols).symm⟩
      | some rc =>
        obtain ⟨r, c⟩ := rc
        have hfold : ∀ (vals : List Nat) (a : LState × List LState),
            ∃ ext, (vals.foldl (tryCell g H W M need fuel r c) a).2 = a.2 ++ ext := by
          intro vals
          induction vals with
          | nil => intro a; exact ⟨[], (List.append_nil _).symm⟩
          | cons v vals ihv =>
            intro a
            rw [List.foldl_cons]
            obtain ⟨e1, he1⟩ : ∃ e1, (tryCell g H W M need fuel r c a v).2 = a.2 ++ e1 := by
              rw [tryCell_eq]
              dsimp only
              split_ifs with hvp
              · exact ih (setCell a.1 r c (some v)) a.2
              · exact ⟨[], (List.append_nil _).symm⟩
            obtain ⟨e2, he2⟩ := ihv (tryCell g H W M need fuel r c a v)
            exact ⟨e1 ++ e2, by rw [he2, he1, List.append_assoc]⟩
        exact hfold _ (st, sols)
    · rw [if_neg h2]
      exact ⟨[], (List.append_nil sols).symm⟩

/-- Everything `backtrack` adds to the solution list is a fully decided state
accepted by `valid_full`; and when the state searched from satisfies the two
local rules, so does every added solution. -/
theorem backtrack_mem_sound (g : Grid) (H W : Nat) (M need : Int) :
    ∀ (fuel : Nat) (st : LState) (sols : List LState) (x : LState),
      x ∈ (backtrack g H W M need fuel st sols).2 →
      x ∈ sols ∨ (valid_full H W M x = true ∧ find_empty H W x = none ∧
        (Consistent g H W st → Consistent g H W x)) := by
  intro fuel
  induction fuel with
  | zero => intro st sols x hx; exact Or.inl hx
  | succ fuel ih =>
    intro st sols x hx
    rw [backtrack_succ] at hx
    by_cases h1 : 0 < need ∧ need ≤ (sols.length : Int)
    · rw [if_pos h1] at hx
      exact Or.inl hx
    rw [if_neg h1] at hx
    by_cases h2 : check_components H W M st = true
    · rw [if_pos h2] at hx
      cases hfe : find_empty H W st with
      | none =>
        rw [hfe] at hx
        dsimp only at hx
        split_ifs at hx with h3
        · rcases List.mem_append.1 hx with hx | hx
          · exact Or.inl hx
          · rw [List.mem_singleton] at hx
            subst hx
            exact Or.inr ⟨h3, hfe, fun h => h⟩
        · exact Or.inl hx
      | some rc =>
        obtain ⟨r, c⟩ := rc
        rw [hfe] at hx
        dsimp only at hx
        obtain ⟨hr, hc, hrc⟩ := find_empty_some hfe
        have hfold : ∀ (vals : List Nat), (∀ v ∈ vals, v = 0 ∨ v = 1) →
            ∀ (sols' : List LState),
            (∀ y ∈ sols', y ∈ sols ∨ (valid_full H W M y = true ∧ find_empty H W y = none ∧
              (Consistent g H W st → Consistent g H W y))) →
            ∀ y ∈ (vals.foldl (tryCell g H W M need fuel r c) (st, sols')).2,
              y ∈ sols ∨ (valid_full H W M y = true ∧ find_empty H W y = none ∧
                (Consistent g H W st → Consistent g H W y)) := by
          intro vals
          induction vals with
          | nil => intro _ sols' hinv y hy; exact hinv y hy
          | cons v vals ihv =>
            intro hvals sols' hinv y hy
            rw [List.foldl_cons] at hy
            have hfst : (tryCell g H W M need fuel r c (st, sols') v).1 = st := by
              rw [tryCell_eq]
              dsimp only
              split_ifs
              · rw [backtrack_fst]
                exact setCell_setCell_none _ hrc
              · exact setCell_setCell_none _ hrc
            have heq : tryCell g H W M need fuel r c (st, sols') v
                = (st, (tryCell g H W M need fuel r c (st, sols') v).2) :=
              Prod.ext hfst rfl
            rw [heq] at hy
            refine ihv (fun w hw => hvals w (List.mem_cons_of_mem v hw)) _ ?_ y hy
            intro z hz
            rw [tryCell_eq] at hz
            dsimp only at hz
            split_ifs at hz with hvp
            · rcases ih (setCell st r c (some v)) sols' z hz with hz' | hz'
              · exact hinv z hz'
              · refine Or.inr ⟨hz'.1, hz'.2.1, fun hcst => hz'.2.2 ?_⟩
                exact consistent_preserved hcst hrc hr hc
                  (hvals v (List.mem_cons_self v vals)) hvp
            · exact hinv z hz
        exact hfold _ (fun v hv => mem_allowed hv) sols (fun y hy => Or.inl hy) x hx
    · rw [if_neg h2] at hx
      exact Or.inl hx

/-! ## Shape and decidedness of the collected solutions -/

theorem allowed_nodup (H W : Nat) (st : LState) (r c : Nat) : (allowed H W st r c).Nodup := by
  unfold allowed
  split_ifs <;> simp

theorem extendsState_refl (H W : Nat) (st : LState) : extendsState H W st st = true :=
  extendsState_iff.2 fun _ _ _ _ _ hv => hv

theorem extendsState_setCell_of_none {H W : Nat} {st x : LState} {r c v : Nat}
    (hrc : getCell st r c = none)
    (h : extendsState H W (setCell st r c (some v)) x = true) :
    extendsState H W st x = true := by
  rw [extendsState_iff] at h ⊢
  intro r' hr' c' hc' w hw
  have hne : r' ≠ r ∨ c' ≠ c := by
    by_contra hcon
    push_neg at hcon
    rw [hcon.1, hcon.2, hrc] at hw
    cases hw
  exact h r' hr' c' hc' w (by rw [getCell_setCell_ne _ hne]; exact hw)

/-- What `backtrack` appends: duplicate-free, each an `H × W` fully decided
state extending the state searched from. -/
theorem backtrack_ext (g : Grid) (H W : Nat) (M need : Int) :
    ∀ (fuel : Nat) (st : LState) (sols : List LState),
      Dims H W st →
      (∀ r, r < H → ∀ c, c < W →
        getCell st r c = none ∨ getCell st r c = some 0 ∨ getCell st r c = some 1) →
      ∃ ext, (backtrack g H W M need fuel st sols).2 = sols ++ ext ∧ ext.Nodup ∧
        ∀ x ∈ ext, Dims H W x ∧ fullyDecided H W x = true ∧
          extendsState H W st x = true := by
  intro fuel
  induction fuel with
  | zero =>
    intro st sols _ _
    exact ⟨[], (List.append_nil sols).symm, List.nodup_nil, by simp⟩
  | succ fuel ih =>
    intro st sols hdims hcells
    rw [backtrack_succ]
    by_cases h1 : 0 < need ∧ need ≤ (sols.length : Int)
    · rw [if_pos h1]
      exact ⟨[], (List.append_nil sols).symm, List.nodup_nil, by simp⟩
    rw [if_neg h1]
    by_cases h2 : check_components H W M st = true
    · rw [if_pos h2]
      cases hfe : find_empty H W st with
      | none =>
        by_cases h3 : valid_full H W M st = true
        · rw [if_pos h3]
          refine ⟨[st], rfl, List.nodup_singleton st, ?_⟩
          intro x hx
          rw [List.mem_singleton] at hx
          subst hx
          refine ⟨hdims, ?_, extendsState_refl H W x⟩
          rw [fullyDecided_iff]
          intro r hr c hc
          rcases hcells r hr c hc with h | h | h
          · exact absurd h (find_empty_none hfe r hr c hc)
          · exact Or.inl h
          · exact Or.inr h
        · rw [if_neg h3]
          exact ⟨[], (List.append_nil sols).symm, List.nodup_nil, by simp⟩
      | some rc =>
        obtain ⟨r, c⟩ := rc
        obtain ⟨hr, hc, hrc⟩ := find_empty_some hfe
        have hfold : ∀ (vals : List Nat), (∀ v ∈ vals, v = 0 ∨ v = 1) → vals.Nodup →
            ∀ (sols' : List LState),
            ∃ ext, (vals.foldl (tryCell g H W M need fuel r c) (st, sols')).2
                = sols' ++ ext ∧ ext.Nodup ∧
              ∀ x ∈ ext, Dims H W x ∧ fullyDecided H W x = true ∧
                extendsState H W st x = true ∧ ∃ v ∈ vals, getCell x r c = some v := by
          intro vals
          induction vals with
          | nil =>
            intro _ _ sols'
            exact ⟨[], (List.append_nil sols').symm, List.nodup_nil, by simp⟩
          | cons v vals ihv =>
            intro hvals hnd sols'
            rw [List.foldl_cons]
            have hst1 : Dims H W (setCell st r c (some v)) := dims_setCell hdims r c _
            have hget1 : getCell (setCell st r c (some v)) r c = some v :=
              getCell_setCell_self hdims hr hc _
            obtain ⟨e1, he1, hnd1, hprop1⟩ :
                ∃ e1, (tryCell g H W M need fuel r c (st, sols') v).2 = sols' ++ e1 ∧
                  e1.Nodup ∧ ∀ x ∈ e1, Dims H W x ∧ fullyDecided H W x = true ∧
                    extendsState H W st x = true ∧ getCell x r c = some v := by
              rw [tryCell_eq]
              dsimp only
              split_ifs with hvp
              · obtain ⟨e, he, hnd', hprop⟩ := ih (setCell st r c (some v)) sols' hst1
                  (by
                    intro r' hr' c' hc'
                    by_cases hee : r' = r ∧ c' = c
                    · rw [hee.1, hee.2, hget1]
                      rcases hvals v (List.mem_cons_self v vals) with rfl | rfl
                      · exact Or.inr (Or.inl rfl)
                      · exact Or.inr (Or.inr rfl)
                    · have : r' ≠ r ∨ c' ≠ c := by tauto
                      rw [getCell_setCell_ne _ this]
                      exact hcells r' hr' c' hc')
                refine ⟨e, he, hnd', ?_⟩
                intro x hx
                obtain ⟨hd', hf', he'⟩ := hprop x hx
                refine ⟨hd', hf', extendsState_setCell_of_none hrc he', ?_⟩
                exact (extendsState_iff.1 he') r hr c hc v hget1
              · exact ⟨[], (List.append_nil sols').symm, List.nodup_nil, by simp⟩
            have hfst : (tryCell g H W M need fuel r c (st, sols') v).1 = st := by
              rw [tryCell_eq]
              dsimp only
              split_ifs
              · rw [backtrack_fst]
                exact setCell_setCell_none _ hrc
              · exact setCell_setCell_none _ hrc
            have heqp : tryCell g H W M need fuel r c (st, sols') v
                = (st, sols' ++ e1) := Prod.ext hfst he1
            rw [heqp]
            obtain ⟨e2, he2, hnd2, hprop2⟩ :=
              ihv (fun w hw => hvals w (List.mem_cons_of_mem v hw))
                (List.nodup_cons.1 hnd).2 (sols' ++ e1)
            refine ⟨e1 ++ e2, by rw [he2, List.append_assoc], ?_, ?_⟩
            · rw [List.nodup_append]
              refine ⟨hnd1, hnd2, ?_⟩
              intro x hx1 hx2
              obtain ⟨-, -, -, hv1⟩ := hprop1 x hx1
              obtain ⟨-, -, -, w, hwvals, hv2⟩ := hprop2 x hx2
              rw [hv1] at hv2
              have : v = w := by
                have := Option.some.inj hv2
                omega
              exact (List.nodup_cons.1 hnd).1 (this ▸ hwvals)
            · intro x hx
              rcases List.mem_append.1 hx with hx | hx
              · obtain ⟨ha, hb, hcx, hv1⟩ := hprop1 x hx
                exact ⟨ha, hb, hcx, v, List.mem_cons_self v vals, hv1⟩
              · obtain ⟨ha, hb, hcx, w, hwvals, hv2⟩ := hprop2 x hx
                exact ⟨ha, hb, hcx, w, List.mem_cons_of_mem v hwvals, hv2⟩
        obtain ⟨ext, hext, hnd, hprop⟩ := hfold (allowed H W st r c)
          (fun v hv => mem_allowed hv) (allowed_nodup H W st r c) sols
        exact ⟨ext, hext, hnd, fun x hx => ⟨(hprop x hx).1, (hprop x hx).2.1,
          (hprop x hx).2.2.1⟩⟩
    · rw [if_neg h2]
      exact ⟨[], (List.append_nil sols).symm, List.nodup_nil, by simp⟩

/-! ## Counting the undecided cells (the recursion measure) -/

/-- Number of undecided cells of the `H × W` board. -/
def noneCountWin (H W : Nat) (st : LState) : Nat :=
  ((cellsRM H W).filter fun p => (getCell st p.1 p.2).isNone).length

theorem filter_length_flip {α : Type _} :
    ∀ (l : List α) (p q : α → Bool) (a : α), l.Nodup → a ∈ l →
      p a = true → q a = false → (∀ x ∈ l, x ≠ a → p x = q x) →
      (l.filter q).length + 1 = (l.filter p).length := by
  intro l
  induction l with
  | nil =>
    intro p q a _ ha
    cases ha
  | cons x l ihl =>
    intro p q a hnd ha hpa hqa hoff
    rcases List.mem_cons.1 ha with hxa | ha'
    · have hxl : a ∉ l := by
        rw [hxa]
        exact (List.nodup_cons.1 hnd).1
      have hcong : l.filter p = l.filter q := by
        refine List.filter_congr ?_
        intro y hy
        exact hoff y (List.mem_cons_of_mem x hy) (fun he => hxl (he ▸ hy))
      have hqx : ¬q x = true := by
        rw [← hxa]
        simp [hqa]
      have hpx : p x = true := by
        rw [← hxa]
        exact hpa
      rw [List.filter_cons_of_neg hqx, List.filter_cons_of_pos hpx, hcong]
      simp
    · have hxa : x ≠ a := by
        intro he
        exact (List.nodup_cons.1 hnd).1 (he ▸ ha')
      have hpq : p x = q x := hoff x (List.mem_cons_self x l) hxa
      have hrec := ihl p q a (List.nodup_cons.1 hnd).2 ha' hpa hqa
        (fun y hy hne => hoff y (List.mem_cons_of_mem x hy) hne)
      by_cases hpx : p x = true
      · have hqx : q x = true := by
          rw [← hpq]
          exact hpx
        rw [List.filter_cons_of_pos hqx, List.filter_cons_of_pos hpx]
        simpa using hrec
      · have hqx : ¬q x = true := by
          rw [← hpq]
          exact hpx
        rw [List.filter_cons_of_neg hqx, List.filter_cons_of_neg hpx]
        exact hrec

theorem noneCountWin_setCell {H W : Nat} {st : LState} {r c : Nat} (v : Nat)
    (hd : Dims H W st) (hr : r < H) (hc : c < W) (hrc : getCell st r c = none) :
    noneCountWin H W (setCell st r c (some v)) + 1 = noneCountWin H W st := by
  refine filter_length_flip (cellsRM H W) _ _ (r, c) (cellsRM_nodup H W)
    (mem_cellsRM.2 ⟨hr, hc⟩) (by simp [hrc]) ?_ ?_
  · simp [getCell_setCell_self hd hr hc]
  · intro x hx hne
    have hx' : x.1 ≠ r ∨ x.2 ≠ c := by
      by_contra hcon
      push_neg at hcon
      exact hne (Prod.ext hcon.1 hcon.2)
    rw [getCell_setCell_ne _ hx']

theorem noneCountWin_pos {H W : Nat} {st : LState} {r c : Nat}
    (hr : r < H) (hc : c < W) (hrc : getCell st r c = none) :
    0 < noneCountWin H W st := by
  refine List.length_pos_of_mem (a := (r, c)) ?_
  rw [List.mem_filter]
  exact ⟨mem_cellsRM.2 ⟨hr, hc⟩, by simp [hrc]⟩

theorem getD_of_length_le {α : Type _} :
    ∀ (l : List α) (n : Nat) (d : α), l.length ≤ n → l.getD n d = d := by
  intro l
  induction l with
  | nil => intro n d _; cases n <;> rfl
  | cons x xs ih =>
    intro n d h
    cases n with
    | zero => simp at h
    | succ m => simpa using ih m d (by simpa using h)

theorem getD_replicate_if {α : Type _} (d a : α) :
    ∀ (n k : Nat), (List.replicate n a).getD k d = if k < n then a else d := by
  intro n
  induction n with
  | zero =>
    intro k
    cases k <;> simp
  | succ m ih =>
    intro k
    cases k with
    | zero => simp
    | succ j =>
      rw [List.replicate_succ]
      have h := ih j
      simpa [Nat.succ_lt_succ_iff] using h

theorem getCell_replicate (H W r c : Nat) :
    getCell (List.replicate H (List.replicate W (none : Option Nat))) r c = none := by
  unfold getCell
  rw [getD_replicate_if]
  split_ifs with hr
  · rw [getD_replicate_if]
    split_ifs <;> rfl
  · cases c <;> rfl

theorem dims_replicate (H W : Nat) :
    Dims H W (List.replicate H (List.replicate W (none : Option Nat))) := by
  constructor
  · simp
  · intro row hrow
    rw [List.eq_of_mem_replicate hrow]
    simp

theorem noneCountWin_replicate (H W : Nat) :
    noneCountWin H W (List.replicate H (List.replicate W none)) = H * W := by
  unfold noneCountWin
  rw [List.filter_eq_self.2, length_cellsRM]
  intro p _
  simp [getCell_replicate]

theorem consistent_replicate (g : Grid) (H W : Nat) :
    Consistent g H W (List.replicate H (List.replicate W none)) := by
  refine ⟨?_, ?_, ?_⟩
  · intro p q _ hb
    rw [getCell_replicate] at hb
    cases hb.1
  · intro r _
    have : rowWhiteVals g W (List.replicate H (List.replicate W none)) r = [] := by
      unfold rowWhiteVals
      rw [List.filterMap_eq_nil]
      intro c _
      rw [if_neg (by rw [getCell_replicate]; simp)]
    rw [this]
    exact List.nodup_nil
  · intro c _
    have : colWhiteVals g H (List.replicate H (List.replicate W none)) c = [] := by
      unfold colWhiteVals
      rw [List.filterMap_eq_nil]
      intro r _
      rw [if_neg (by rw [getCell_replicate]; simp)]
    rw [this]
    exact List.nodup_nil

/-! ## Completeness of the exhaustive search -/

theorem tryCell_append (g : Grid) (H W : Nat) (M need : Int) (fuel : Nat) (r c : Nat)
    (a : LState × List LState) (v : Nat) :
    ∃ e, (tryCell g H W M need fuel r c a v).2 = a.2 ++ e := by
  rw [tryCell_eq]
  dsimp only
  split_ifs with hvp
  · exact backtrack_append g H W M need fuel (setCell a.1 r c (some v)) a.2
  · exact ⟨[], (List.append_nil _).symm⟩

theorem foldl_tryCell_append (g : Grid) (H W : Nat) (M need : Int) (fuel : Nat) (r c : Nat) :
    ∀ (vals : List Nat) (a : LState × List LState),
      ∃ e, (vals.foldl (tryCell g H W M need fuel r c) a).2 = a.2 ++ e := by
  intro vals
  induction vals with
  | nil => intro a; exact ⟨[], (List.append_nil _).symm⟩
  | cons v vals ihv =>
    intro a
    rw [List.foldl_cons]
    obtain ⟨e1, he1⟩ := tryCell_append g H W M need fuel r c a v
    obtain ⟨e2, he2⟩ := ihv (tryCell g H W M need fuel r c a v)
    exact ⟨e1 ++ e2, by rw [he2, he1, List.append_assoc]⟩

theorem rowWhiteVals_sublist {g : Grid} {W : Nat} {st s : LState} {r : Nat}
    (h : ∀ col, col < W → getCell st r col = some 0 → getCell s r col = some 0) :
    (rowWhiteVals g W st r).Sublist (rowWhiteVals g W s r) := by
  unfold rowWhiteVals
  have key : ∀ l : List Nat, (∀ col ∈ l, col < W) →
      (l.filterMap fun col =>
          if getCell st r col = some 0 then some (getRC g r col) else none).Sublist
        (l.filterMap fun col =>
          if getCell s r col = some 0 then some (getRC g r col) else none) := by
    intro l
    induction l with
    | nil => intro _; simp
    | cons a l ihl =>
      intro hb
      rw [List.filterMap_cons, List.filterMap_cons]
      have hrest := ihl fun col hcol => hb col (List.mem_cons_of_mem a hcol)
      by_cases hP : getCell st r a = some 0
      · rw [if_pos hP, if_pos (h a (hb a (List.mem_cons_self a l)) hP)]
        exact hrest.cons₂ _
      · rw [if_neg hP]
        by_cases hQ : getCell s r a = some 0
        · rw [if_pos hQ]
          exact hrest.cons _
        · rw [if_neg hQ]
          exact hrest
  exact key _ fun col hcol => List.mem_range.1 hcol

theorem colWhiteVals_sublist {g : Grid} {H : Nat} {st s : LState} {c : Nat}
    (h : ∀ row, row < H → getCell st row c = some 0 → getCell s row c = some 0) :
    (colWhiteVals g H st c).Sublist (colWhiteVals g H s c) := by
  unfold colWhiteVals
  have key : ∀ l : List Nat, (∀ row ∈ l, row < H) →
      (l.filterMap fun row =>
          if getCell st row c = some 0 then some (getRC g row c) else none).Sublist
        (l.filterMap fun row =>
          if getCell s row c = some 0 then some (getRC g row c) else none) := by
    intro l
    induction l with
    | nil => intro _; simp
    | cons a l ihl =>
      intro hb
      rw [List.filterMap_cons, List.filterMap_cons]
      have hrest := ihl fun row hrow => hb row (List.mem_cons_of_mem a hrow)
      by_cases hP : getCell st a c = some 0
      · rw [if_pos hP, if_pos (h a (hb a (List.mem_cons_self a l)) hP)]
        exact hrest.cons₂ _
      · rw [if_neg hP]
        by_cases hQ : getCell s a c = some 0
        · rw [if_pos hQ]
          exact hrest.cons _
        · rw [if_neg hQ]
          exact hrest
  exact key _ fun row hrow => List.mem_range.1 hrow

theorem eq_of_window_eq {H W : Nat} {st s : LState} (hst : Dims H W st) (hs : Dims H W s)
    (h : ∀ r, r < H → ∀ c, c < W → getCell st r c = getCell s r c) : st = s := by
  apply List.ext_getElem
  · rw [hst.1, hs.1]
  intro r h1 h2
  apply List.ext_getElem
  · rw [hst.2 _ (st.getElem_mem h1), hs.2 _ (s.getElem_mem h2)]
  intro c hc1 hc2
  have hrH : r < H := by
    rw [← hst.1]
    exact h1
  have hcW : c < W := by
    have := hst.2 _ (st.getElem_mem h1)
    omega
  have hcc := h r hrH c hcW
  have e1 : getCell st r c = st[r][c] := by
    unfold getCell
    rw [getD_eq_getElem _ _ _ h1]
    exact getD_eq_getElem _ _ _ hc1
  have e2 : getCell s r c = s[r][c] := by
    unfold getCell
    rw [getD_eq_getElem _ _ _ h2]
    exact getD_eq_getElem _ _ _ hc2
  rw [← e1, ← e2]
  exact hcc

theorem allowed_cons (H W : Nat) (st : LState) (r c : Nat) :
    ∃ rest, allowed H W st r c = 0 :: rest := by
  unfold allowed
  split_ifs
  · exact ⟨[1], rfl⟩
  · exact ⟨[], rfl⟩

theorem allowed_eq_of_one_mem {H W : Nat} {st : LState} {r c : Nat}
    (h : (1 : Nat) ∈ allowed H W st r c) : allowed H W st r c = [0, 1] := by
  unfold allowed at h ⊢
  split_ifs at h ⊢ with hcond
  · rfl
  · simp at h

theorem extendsState_setCell_to {H W : Nat} {st s : LState} {r c v : Nat}
    (hd : Dims H W st) (hr : r < H) (hc : c < W)
    (hext : extendsState H W st s = true) (hs : getCell s r c = some v) :
    extendsState H W (setCell st r c (some v)) s = true := by
  rw [extendsState_iff] at hext ⊢
  intro r' hr' c' hc' w hw
  by_cases he : r' = r ∧ c' = c
  · rw [he.1, he.2] at hw ⊢
    rw [getCell_setCell_self hd hr hc] at hw
    rw [hs]
    exact hw
  · have hne : r' ≠ r ∨ c' ≠ c := by tauto
    rw [getCell_setCell_ne _ hne] at hw
    exact hext r' hr' c' hc' w hw

/-- Completeness of the exhaustive search (`need = 0`): with enough fuel, every
`H × W` fully decided state extending the searched state that satisfies both
local rules and the component bound is collected — the optimistic pruning never
cuts it off (board of at least two rows). -/
theorem backtrack_complete (g : Grid) (H W : Nat) (M : Int) (hH : 2 ≤ H) :
    ∀ (fuel : Nat) (st : LState) (sols : List LState) (s : LState),
      Dims H W st → Dims H W s →
      noneCountWin H W st + 1 ≤ fuel →
      extendsState H W st s = true →
      fullyDecided H W s = true →
      noTwoAdjacentRemoved H W s = true →
      keptValuesUnique g H W s = true →
      valid_full H W M s = true →
      s ∈ (backtrack g H W M 0 fuel st sols).2 := by
  intro fuel
  induction fuel with
  | zero =>
    intro st sols s _ _ hfuel
    omega
  | succ fuel ih =>
    intro st sols s hdst hds hfuel hext hfull hadj huniq hvf
    rw [backtrack_succ]
    rw [if_neg (by simp)]
    have hextP := extendsState_iff.1 hext
    have hfullP := fullyDecided_iff.1 hfull
    have hadjP := noTwoAdjacentRemoved_iff.1 hadj
    have huniqP := keptValuesUnique_iff.1 huniq
    have hchk : check_components H W M st = true := by
      rw [check_components_iff]
      have hle := optimistic_le_exact hH hextP hfullP hadjP
      have hs := valid_full_iff.1 hvf
      calc ((count_connected_components (binary_grid H W st)) : Int)
          ≤ (count_connected_components (white_map H W s) : Int) := by exact_mod_cast hle
        _ ≤ M := hs
    rw [if_pos hchk]
    cases hfe : find_empty H W st with
    | none =>
      have hst_s : st = s := by
        refine eq_of_window_eq hdst hds ?_
        intro r hr c hc
        rcases hcell : getCell st r c with _ | v
        · exact absurd hcell (find_empty_none hfe r hr c hc)
        · exact (hextP r hr c hc v hcell).symm
      rw [hst_s]
      dsimp only
      rw [if_pos hvf]
      exact List.mem_append.2 (Or.inr (List.mem_singleton.2 rfl))
    | some rc =>
      obtain ⟨r, c⟩ := rc
      obtain ⟨hr, hc, hrc⟩ := find_empty_some hfe
      dsimp only
      have hfuel' : ∀ v : Nat, noneCountWin H W (setCell st r c (some v)) + 1 ≤ fuel := by
        intro v
        have hdec := noneCountWin_setCell v hdst hr hc hrc
        have hpos := noneCountWin_pos hr hc hrc
        omega
      rcases hfullP r hr c hc with hs0 | hs1
      · -- `s` keeps the split cell: descend into the `v = 0` branch
        have hst1d : Dims H W (setCell st r c (some 0)) := dims_setCell hdst r c _
        have hget1 : getCell (setCell st r c (some 0)) r c = some 0 :=
          getCell_setCell_self hdst hr hc _
        have hvp : valid_partial g H W (setCell st r c (some 0)) r c = true := by
          unfold valid_partial
          rw [if_neg (by rw [hget1]; simp), Bool.and_eq_true, decide_eq_true_iff,
            decide_eq_true_iff]
          constructor
          · refine (huniqP.1 r hr).sublist (rowWhiteVals_sublist ?_)
            intro col hcol hwhite
            by_cases hcc : col = c
            · rw [hcc]
              exact hs0
            · rw [getCell_setCell_ne _ (Or.inr hcc)] at hwhite
              exact hextP r hr col hcol 0 hwhite
          · refine (huniqP.2 c hc).sublist (colWhiteVals_sublist ?_)
            intro row hrow hwhite
            by_cases hrr : row = r
            · rw [hrr]
              exact hs0
            · rw [getCell_setCell_ne _ (Or.inl hrr)] at hwhite
              exact hextP row hrow c hc 0 hwhite
        have hmem1 : s ∈ (backtrack g H W M 0 fuel (setCell st r c (some 0)) sols).2 :=
          ih (setCell st r c (some 0)) sols s hst1d hds (hfuel' 0)
            (extendsState_setCell_to hdst hr hc hext hs0) hfull hadj huniq hvf
        obtain ⟨rest, hrest⟩ := allowed_cons H W st r c
        rw [hrest, List.foldl_cons]
        have hacc : tryCell g H W M 0 fuel r c (st, sols) 0
            = (st, (backtrack g H W M 0 fuel (setCell st r c (some 0)) sols).2) := by
          rw [tryCell_eq]
          dsimp only
          rw [if_pos hvp]
          refine Prod.ext ?_ rfl
          dsimp only
          rw [backtrack_fst]
          exact setCell_setCell_none _ hrc
        rw [hacc]
        obtain ⟨e, he⟩ := foldl_tryCell_append g H W M 0 fuel r c rest
          (st, (backtrack g H W M 0 fuel (setCell st r c (some 0)) sols).2)
        rw [he]
        exact List.mem_append.2 (Or.inl hmem1)
      · -- `s` removes the split cell: `1` is offered, descend into the `v = 1` branch
        have hone : (1 : Nat) ∈ allowed H W st r c := by
          refine one_mem_allowed ?_
          intro n hn hblack
          have hadjn : Adj H W (r, c) n := (mem_neighbors_orth_adj hr hc).1 hn
          have hsn : getCell s n.1 n.2 = some 1 :=
            hextP n.1 hadjn.2.2.1 n.2 hadjn.2.2.2.1 1 hblack
          exact hadjP (r, c) n hadjn ⟨hs1, hsn⟩
        rw [allowed_eq_of_one_mem hone, List.foldl_cons, List.foldl_cons, List.foldl_nil]
        set X := (tryCell g H W M 0 fuel r c (st, sols) 0).2 with hX
        have hfst0 : (tryCell g H W M 0 fuel r c (st, sols) 0).1 = st := by
          rw [tryCell_eq]
          dsimp only
          split_ifs
          · rw [backtrack_fst]
            exact setCell_setCell_none _ hrc
          · exact setCell_setCell_none _ hrc
        have heq0 : tryCell g H W M 0 fuel r c (st, sols) 0 = (st, X) := Prod.ext hfst0 rfl
        rw [heq0]
        have hst1d : Dims H W (setCell st r c (some 1)) := dims_setCell hdst r c _
        have hget1 : getCell (setCell st r c (some 1)) r c = some 1 :=
          getCell_setCell_self hdst hr hc _
        have hvp : valid_partial g H W (setCell st r c (some 1)) r c = true := by
          unfold valid_partial
          rw [if_pos hget1, List.all_eq_true]
          intro n hn
          have hadjn : Adj H W (r, c) n := (mem_neighbors_orth_adj hr hc).1 hn
          have hne : n.1 ≠ r ∨ n.2 ≠ c := by
            by_contra hcon
            push_neg at hcon
            exact adj_ne hadjn (Prod.ext hcon.1 hcon.2).symm
          suffices hcell : ¬getCell st n.1 n.2 = some 1 by
            rw [getCell_setCell_ne _ hne]
            simpa using hcell
          intro hblack
          have hsn : getCell s n.1 n.2 = some 1 :=
            hextP n.1 hadjn.2.2.1 n.2 hadjn.2.2.2.1 1 hblack
          exact hadjP (r, c) n hadjn ⟨hs1, hsn⟩
        rw [tryCell_eq]
        dsimp only
        rw [if_pos hvp]
        exact ih (setCell st r c (some 1)) X s hst1d hds (hfuel' 1)
          (extendsState_setCell_to hdst hr hc hext hs1) hfull hadj huniq hvf

/-! ## The quota contract -/

theorem tryCell_fst (g : Grid) (H W : Nat) (M need : Int) (fuel : Nat) (r c : Nat)
    (a : LState × List LState) (v : Nat) :
    (tryCell g H W M need fuel r c a v).1
      = setCell (setCell a.1 r c (some v)) r c none := by
  rw [tryCell_eq]
  dsimp only
  split_ifs
  · rw [backtrack_fst]
  · rfl

/-- With `need = 0` the solution list is a pure accumulator: running from
`sols` appends exactly what running from the empty list produces. -/
theorem backtrack_zero_shift (g : Grid) (H W : Nat) (M : Int) :
    ∀ (fuel : Nat) (st : LState) (sols : List LState),
      (backtrack g H W M 0 fuel st sols).2
        = sols ++ (backtrack g H W M 0 fuel st []).2 := by
  intro fuel
  induction fuel with
  | zero =>
    intro st sols
    exact (List.append_nil sols).symm
  | succ fuel ih =>
    intro st sols
    rw [backtrack_succ, backtrack_succ]
    rw [if_neg (show ¬(0 < (0 : Int) ∧ (0 : Int) ≤ (sols.length : Int)) by simp),
      if_neg (show ¬(0 < (0 : Int) ∧ (0 : Int) ≤ ((([] : List LState)).length : Int)) by simp)]
    by_cases h2 : check_components H W M st = true
    · rw [if_pos h2, if_pos h2]
      cases hfe : find_empty H W st with
      | none =>
        dsimp only
        by_cases h3 : valid_full H W M st = true
        · rw [if_pos h3, if_pos h3, List.nil_append]
        · rw [if_neg h3, if_neg h3, List.append_nil]
      | some rc =>
        obtain ⟨r, c⟩ := rc
        dsimp only
        have hfold : ∀ (vals : List Nat) (u : LState) (s1 s2 : List LState),
            vals.foldl (tryCell g H W M 0 fuel r c) (u, s1 ++ s2)
              = ((vals.foldl (tryCell g H W M 0 fuel r c) (u, s2)).1,
                 s1 ++ (vals.foldl (tryCell g H W M 0 fuel r c) (u, s2)).2) := by
          intro vals
          induction vals with
          | nil => intro u s1 s2; rfl
          | cons v vals ihv =>
            intro u s1 s2
            rw [List.foldl_cons, List.foldl_cons]
            have hstep : tryCell g H W M 0 fuel r c (u, s1 ++ s2) v
                = ((tryCell g H W M 0 fuel r c (u, s2) v).1,
                   s1 ++ (tryCell g H W M 0 fuel r c (u, s2) v).2) := by
              refine Prod.ext ?_ ?_
              · rw [tryCell_fst, tryCell_fst]
              · rw [tryCell_eq, tryCell_eq]
                dsimp only
                split_ifs with hvp
                · rw [ih, ih (setCell u r c (some v)) s2, List.append_assoc]
                · rfl
            rw [hstep]
            have := ihv (tryCell g H W M 0 fuel r c (u, s2) v).1 s1
              (tryCell g H W M 0 fuel r c (u, s2) v).2
            rw [this]
        have hsols : sols = sols ++ ([] : List LState) := (List.append_nil sols).symm
        calc (List.foldl (tryCell g H W M 0 fuel r c) (st, sols)
                (allowed H W st r c)).2
            = (List.foldl (tryCell g H W M 0 fuel r c) (st, sols ++ [])
                (allowed H W st r c)).2 := by rw [← hsols]
          _ = sols ++ (List.foldl (tryCell g H W M 0 fuel r c) (st, [])
                (allowed H W st r c)).2 := by rw [hfold]
    · rw [if_neg h2, if_neg h2]
      exact (List.append_nil sols).symm

theorem take_take_append {α : Type _} (n : Nat) (l m : List α) :
    ((l.take n) ++ m).take n = (l ++ m).take n := by
  rcases le_or_lt n l.length with h | h
  · rw [List.take_append_of_le_length (by
      rw [List.length_take]
      exact Nat.le_min.2 ⟨Nat.le_refl n, h⟩),
      List.take_append_of_le_length h, List.take_take, Nat.min_self]
  · rw [List.take_of_length_le (Nat.le_of_lt h)]

/-- Quota contract, structurally: with a positive quota `n`, `backtrack`
produces exactly the first `n` entries of the exhaustive (`need = 0`) run. -/
theorem backtrack_take (g : Grid) (H W : Nat) (M : Int) (n : Int) (hn : 0 < n) :
    ∀ (fuel : Nat) (st : LState) (sols : List LState),
      (sols.length : Int) ≤ n →
      (backtrack g H W M n fuel st sols).2
        = ((backtrack g H W M 0 fuel st sols).2).take n.toNat := by
  intro fuel
  induction fuel with
  | zero =>
    intro st sols hlen
    show sols = sols.take n.toNat
    exact (List.take_of_length_le (by omega)).symm
  | succ fuel ih =>
    intro st sols hlen
    by_cases hq : n ≤ (sols.length : Int)
    · -- the quota already fires on entry
      have hlen' : sols.length = n.toNat := by omega
      rw [backtrack_succ, if_pos ⟨hn, hq⟩, backtrack_zero_shift, ← hlen', List.take_left]
    · rw [backtrack_succ, backtrack_succ]
      rw [if_neg (show ¬(0 < n ∧ n ≤ (sols.length : Int)) from fun hcon => hq hcon.2),
        if_neg (show ¬(0 < (0 : Int) ∧ (0 : Int) ≤ (sols.length : Int)) by simp)]
      by_cases h2 : check_components H W M st = true
      · rw [if_pos h2, if_pos h2]
        cases hfe : find_empty H W st with
        | none =>
          dsimp only
          by_cases h3 : valid_full H W M st = true
          · rw [if_pos h3]
            exact (List.take_of_length_le (by
              rw [List.length_append, List.length_singleton]
              omega)).symm
          · rw [if_neg h3]
            exact (List.take_of_length_le (by omega)).symm
        | some rc =>
          obtain ⟨r, c⟩ := rc
          dsimp only
          have hfold : ∀ (vals : List Nat) (u : LState) (s0 : List LState),
              vals.foldl (tryCell g H W M n fuel r c) (u, s0.take n.toNat)
                = ((vals.foldl (tryCell g H W M 0 fuel r c) (u, s0)).1,
                   ((vals.foldl (tryCell g H W M 0 fuel r c) (u, s0)).2).take n.toNat) := by
            intro vals
            induction vals with
            | nil => intro u s0; rfl
            | cons v vals ihv =>
              intro u s0
              rw [List.foldl_cons, List.foldl_cons]
              have hstep : tryCell g H W M n fuel r c (u, s0.take n.toNat) v
                  = ((tryCell g H W M 0 fuel r c (u, s0) v).1,
                     ((tryCell g H W M 0 fuel r c (u, s0) v).2).take n.toNat) := by
                refine Prod.ext ?_ ?_
                · rw [tryCell_fst, tryCell_fst]
                · rw [tryCell_eq, tryCell_eq]
                  dsimp only
                  split_ifs with hvp
                  · rw [ih _ _ (by
                      rw [List.length_take]
                      omega)]
                    rw [backtrack_zero_shift, backtrack_zero_shift g H W M fuel
                      (setCell u r c (some v)) s0]
                    exact take_take_append _ _ _
                  · rfl
              rw [hstep]
              exact ihv (tryCell g H W M 0 fuel r c (u, s0) v).1
                (tryCell g H W M 0 fuel r c (u, s0) v).2
          have hsols : sols.take n.toNat = sols := List.take_of_length_le (by omega)
          calc (List.foldl (tryCell g H W M n fuel r c) (st, sols)
                  (allowed H W st r c)).2
              = (List.foldl (tryCell g H W M n fuel r c) (st, sols.take n.toNat)
                  (allowed H W st r c)).2 := by rw [hsols]
            _ = ((List.foldl (tryCell g H W M 0 fuel r c) (st, sols)
                  (allowed H W st r c)).2).take n.toNat := by rw [hfold]
      · rw [if_neg h2, if_neg h2]
        show sols = sols.take n.toNat
        exact (List.take_of_length_le (by omega)).symm

/-- A non-positive `need` is handled exactly like `need = 0` (the quota test
`need > 0` never fires). -/
theorem backtrack_nonpos (g : Grid) (H W : Nat) (M : Int) (need : Int) (hneed : need ≤ 0) :
    ∀ (fuel : Nat) (st : LState) (sols : List LState),
      backtrack g H W M need fuel st sols = backtrack g H W M 0 fuel st sols := by
  intro fuel
  induction fuel with
  | zero => intro st sols; rfl
  | succ fuel ih =>
    intro st sols
    rw [backtrack_succ, backtrack_succ]
    rw [if_neg (show ¬(0 < need ∧ need ≤ (sols.length : Int)) by
        intro hcon
        omega),
      if_neg (show ¬(0 < (0 : Int) ∧ (0 : Int) ≤ (sols.length : Int)) by simp)]
    by_cases h2 : check_components H W M st = true
    · rw [if_pos h2, if_pos h2]
      cases hfe : find_empty H W st with
      | none => rfl
      | some rc =>
        obtain ⟨r, c⟩ := rc
        have hfold : ∀ (vals : List Nat) (a : LState × List LState),
            vals.foldl (tryCell g H W M need fuel r c) a
              = vals.foldl (tryCell g H W M 0 fuel r c) a := by
          intro vals
          induction vals with
          | nil => intro a; rfl
          | cons v vals ihv =>
            intro a
            rw [List.foldl_cons, List.foldl_cons]
            have hstep : tryCell g H W M need fuel r c a v
                = tryCell g H W M 0 fuel r c a v := by
              rw [tryCell_eq, tryCell_eq]
              split_ifs with hvp
              · rw [ih]
              · rfl
            rw [hstep, ihv]
        show List.foldl (tryCell g H W M need fuel r c) (st, sols) (allowed H W st r c)
            = List.foldl (tryCell g H W M 0 fuel r c) (st, sols) (allowed H W st r c)
        rw [hfold]
    · rw [if_neg h2, if_neg h2]

/-! ## Cells outside the board window are never touched -/

theorem backtrack_frame (g : Grid) (H W : Nat) (M need : Int) :
    ∀ (fuel : Nat) (st : LState) (sols : List LState) (x : LState),
      x ∈ (backtrack g H W M need fuel st sols).2 →
      x ∈ sols ∨ (x.drop H = st.drop H ∧ x.length = st.length) := by
  intro fuel
  induction fuel with
  | zero => intro st sols x hx; exact Or.inl hx
  | succ fuel ih =>
    intro st sols x hx
    rw [backtrack_succ] at hx
    by_cases h1 : 0 < need ∧ need ≤ (sols.length : Int)
    · rw [if_pos h1] at hx
      exact Or.inl hx
    rw [if_neg h1] at hx
    by_cases h2 : check_components H W M st = true
    · rw [if_pos h2] at hx
      cases hfe : find_empty H W st with
      | none =>
        rw [hfe] at hx
        dsimp only at hx
        split_ifs at hx with h3
        · rcases List.mem_append.1 hx with hx | hx
          · exact Or.inl hx
          · rw [List.mem_singleton] at hx
            subst hx
            exact Or.inr ⟨rfl, rfl⟩
        · exact Or.inl hx
      | some rc =>
        obtain ⟨r, c⟩ := rc
        rw [hfe] at hx
        dsimp only at hx
        obtain ⟨hr, hc, hrc⟩ := find_empty_some hfe
        have hset : ∀ (v : Option Nat), (setCell st r c v).drop H = st.drop H ∧
            (setCell st r c v).length = st.length := by
          intro v
          constructor
          · unfold setCell
            exact List.drop_set_of_lt _ _ hr
          · exact List.length_set ..
        have hfold : ∀ (vals : List Nat) (sols' : List LState),
            (∀ y ∈ sols', y ∈ sols ∨ (y.drop H = st.drop H ∧ y.length = st.length)) →
            ∀ y ∈ (vals.foldl (tryCell g H W M need fuel r c) (st, sols')).2,
              y ∈ sols ∨ (y.drop H = st.drop H ∧ y.length = st.length) := by
          intro vals
          induction vals with
          | nil => intro sols' hinv y hy; exact hinv y hy
          | cons v vals ihv =>
            intro sols' hinv y hy
            rw [List.foldl_cons] at hy
            have hfst : (tryCell g H W M need fuel r c (st, sols') v).1 = st := by
              rw [tryCell_fst]
              exact setCell_setCell_none _ hrc
            have heq : tryCell g H W M need fuel r c (st, sols') v
                = (st, (tryCell g H W M need fuel r c (st, sols') v).2) :=
              Prod.ext hfst rfl
            rw [heq] at hy
            refine ihv _ ?_ y hy
            intro z hz
            rw [tryCell_eq] at hz
            dsimp only at hz
            split_ifs at hz with hvp
            · rcases ih (setCell st r c (some v)) sols' z hz with hz' | hz'
              · exact hinv z hz'
              · refine Or.inr ?_
                obtain ⟨hd, hl⟩ := hset (some v)
                exact ⟨hz'.1.trans hd, hz'.2.trans hl⟩
            · exact hinv z hz
        exact hfold _ sols (fun y hy => Or.inl hy) x hx
    · rw [if_neg h2] at hx
      exact Or.inl hx

/-! ## The solver object, unfolded -/

theorem solve_solutions (s : HitoriSolver) (need : Int) :
    (s.solve need).solutions = (backtrack s.grid s.H s.W s.max_components need
      (s.H * s.W + 1) s.state s.solutions).2 := rfl

theorem solve_state (s : HitoriSolver) (need : Int) :
    (s.solve need).state = (backtrack s.grid s.H s.W s.max_components need
      (s.H * s.W + 1) s.state s.solutions).1 := rfl

theorem init_none_state (g : Grid) (M : Int) :
    (HitoriSolver.init g none M).state
      = List.replicate g.length (List.replicate (g.getD 0 []).length none) := rfl

theorem init_fields (g : Grid) (seed : Option LState) (M : Int) :
    (HitoriSolver.init g seed M).grid = g ∧ (HitoriSolver.init g seed M).H = g.length ∧
    (HitoriSolver.init g seed M).W = (g.getD 0 []).length ∧
    (HitoriSolver.init g seed M).max_components = M ∧
    (HitoriSolver.init g seed M).solutions = [] :=
  ⟨rfl, rfl, rfl, rfl, rfl⟩

theorem init_some_state {g : Grid} {seed : LState} {M : Int} (h : seed ≠ []) :
    (HitoriSolver.init g (some seed) M).state = seed := by
  show (if seed.isEmpty then _ else seed) = seed
  rw [if_neg (by simpa using h)]

theorem extendsState_replicate (H W : Nat) (s : LState) :
    extendsState H W (List.replicate H (List.replicate W none)) s = true := by
  rw [extendsState_iff]
  intro r hr c hc v hv
  rw [getCell_replicate] at hv
  cases hv

theorem cellsOk_replicate (H W : Nat) :
    ∀ r, r < H → ∀ c, c < W →
      getCell (List.replicate H (List.replicate W none)) r c = none ∨
      getCell (List.replicate H (List.replicate W none)) r c = some 0 ∨
      getCell (List.replicate H (List.replicate W none)) r c = some 1 :=
  fun r _ c _ => Or.inl (getCell_replicate H W r c)

/-! ## A nonempty board has at least one optimistic component -/

theorem count_fold_fst_mono (m : List (List Nat)) (H W : Nat) :
    ∀ (l : List Cell) (a : Nat × Finset Cell),
      a.1 ≤ (l.foldl (fun (a : Nat × Finset Cell) p =>
        if getRC m p.1 p.2 = 0 ∧ p ∉ a.2 then
          (a.1 + 1, bfs m H W (H * W + 1) [p] (insert p a.2))
        else a) a).1 := by
  intro l
  induction l with
  | nil => intro a; exact le_refl _
  | cons p l ihl =>
    intro a
    rw [List.foldl_cons]
    refine le_trans ?_ (ihl _)
    split_ifs
    · exact Nat.le_succ _
    · exact le_refl _

theorem count_pos (m : List (List Nat)) (hH : 1 ≤ m.length)
    (hW : 1 ≤ (m.getD 0 []).length) (h00 : getRC m 0 0 = 0) :
    1 ≤ count_connected_components m := by
  simp only [count_connected_components]
  obtain ⟨t, ht⟩ := cellsRM_cons hH hW
  rw [ht, List.foldl_cons, if_pos ⟨h00, by simp⟩]
  have h := count_fold_fst_mono m m.length (m.getD 0 []).length t
    ((1 : Nat), bfs m m.length (m.getD 0 []).length
      (m.length * (m.getD 0 []).length + 1) [((0 : Nat), (0 : Nat))]
      (insert ((0 : Nat), (0 : Nat)) (∅ : Finset Cell)))
  exact le_trans (le_refl 1) h

theorem binary_grid_length (H W : Nat) (st : LState) : (binary_grid H W st).length = H :=
  length_map_map _

theorem binary_grid_width (H W : Nat) (st : LState) (hH : 0 < H) :
    ((binary_grid H W st).getD 0 []).length = W :=
  width_map_map _ hH

theorem getRC_binary_grid {H W : Nat} {st : LState} {r c : Nat} (hr : r < H) (hc : c < W) :
    getRC (binary_grid H W st) r c
      = if getCell st r c = some 0 then 0
        else if getCell st r c = none then 0 else 1 :=
  getRC_map_map _ hr hc

/-! ## The claims -/

/-- **C1** (code bug): with bound `M = 0` the Component Bound Checker is *not*
skipped.  `check_components` demands `components ≤ 0`, which already fails on
the all-undecided root of any non-empty grid (everything counts as white, at
least one component), so `solve` prunes everything at the root and returns no
solutions for every grid and every quota — whereas the same grid with `M = 1`
does produce solutions.  This contradicts the documented meaning of `--M 0`
("без ограничений": no connectivity constraint, nothing rejected on
connectivity grounds). -/
theorem C1_zero_bound_prunes_everything (g : Grid) (need : Int)
    (hH : 1 ≤ g.length) (hW : 1 ≤ (g.getD 0 []).length) :
    ((HitoriSolver.init g none 0).solve need).solutions = [] ∧
    ((HitoriSolver.init [[1, 2], [2, 1]] none 1).solve 1).solutions ≠ [] := by
  constructor
  · rw [solve_solutions]
    have hchk : check_components g.length (g.getD 0 []).length 0
        (List.replicate g.length (List.replicate (g.getD 0 []).length none)) = false := by
      apply decide_eq_false
      intro hle
      have h1 : 1 ≤ count_connected_components (binary_grid g.length (g.getD 0 []).length
          (List.replicate g.length (List.replicate (g.getD 0 []).length none))) := by
        refine count_pos _ ?_ ?_ ?_
        · rw [binary_grid_length]
          exact hH
        · rw [binary_grid_width _ _ _ (by omega)]
          exact hW
        · rw [getRC_binary_grid (by omega) (by omega),
            if_neg (by rw [getCell_replicate]; simp), if_pos (getCell_replicate _ _ _ _)]
      omega
    show (backtrack g g.length (g.getD 0 []).length 0 need
        (g.length * (g.getD 0 []).length + 1)
        (List.replicate g.length (List.replicate (g.getD 0 []).length none)) []).2 = []
    rw [backtrack_succ,
      if_neg (show ¬(0 < need ∧ need ≤ ((([] : List LState)).length : Int)) by
        rintro ⟨ha, hb⟩
        simp at hb
        omega),
      if_neg (show ¬(check_components g.length (g.getD 0 []).length 0
          (List.replicate g.length (List.replicate (g.getD 0 []).length none)) = true) by
        intro hcon
        rw [hchk] at hcon
        cases hcon)]
  · decide

/-- Witness for the `M = 0` theorem at the concrete failing input
`[[1,2],[2,1]]` with `--all` (`need = 0`). -/
theorem C1_zero_bound_prunes_everything_witness :
    (1 ≤ ([[1, 2], [2, 1]] : Grid).length) ∧
    (1 ≤ (([[1, 2], [2, 1]] : Grid).getD 0 []).length) ∧
    (((HitoriSolver.init [[1, 2], [2, 1]] none 0).solve 0).solutions = [] ∧
     ((HitoriSolver.init [[1, 2], [2, 1]] none 1).solve 1).solutions ≠ []) :=
  ⟨by decide, by decide,
    C1_zero_bound_prunes_everything [[1, 2], [2, 1]] 0 (by decide) (by decide)⟩

/-- **C2**: every Solution of a solve run started from the all-undecided state
satisfies both local puzzle rules — no two orthogonally adjacent removed cells,
and duplicate-free kept grid values in every row and in every column. -/
theorem C2_solutions_satisfy_local_rules (g : Grid) (M need : Int) (s : LState)
    (hs : s ∈ ((HitoriSolver.init g none M).solve need).solutions) :
    noTwoAdjacentRemoved g.length (g.getD 0 []).length s = true ∧
    keptValuesUnique g g.length (g.getD 0 []).length s = true := by
  rw [solve_solutions] at hs
  rcases backtrack_mem_sound g g.length (g.getD 0 []).length M need
      (g.length * (g.getD 0 []).length + 1)
      (List.replicate g.length (List.replicate (g.getD 0 []).length none)) [] s hs
    with h | h
  · cases h
  · have hcons := h.2.2 (consistent_replicate g g.length (g.getD 0 []).length)
    exact ⟨noTwoAdjacentRemoved_iff.2 hcons.1,
      keptValuesUnique_iff.2 ⟨hcons.2.1, hcons.2.2⟩⟩

/-- Witness for the local-rules theorem on the classical `2 × 2` grid. -/
theorem C2_solutions_satisfy_local_rules_witness :
    ([[some 0, some 0], [some 0, some 0]] : LState)
        ∈ ((HitoriSolver.init [[1, 2], [2, 1]] none 1).solve 1).solutions ∧
    (noTwoAdjacentRemoved 2 2 [[some 0, some 0], [some 0, some 0]] = true ∧
     keptValuesUnique [[1, 2], [2, 1]] 2 2 [[some 0, some 0], [some 0, some 0]] = true) :=
  ⟨by decide, C2_solutions_satisfy_local_rules [[1, 2], [2, 1]] 1 1 _ (by decide)⟩

/-- **C3**: every Solution returned by `solve` (from any seed state) passes the
exact, no-optimism component count of `valid_full`: the kept cells of the
solution form at most `M` components. -/
theorem C3_solutions_within_component_bound (g : Grid) (seed : Option LState)
    (M need : Int) (s : LState) (hM : 0 < M)
    (hs : s ∈ ((HitoriSolver.init g seed M).solve need).solutions) :
    (count_connected_components
        (white_map g.length (g.getD 0 []).length s) : Int) ≤ M := by
  rw [solve_solutions] at hs
  rcases backtrack_mem_sound ((HitoriSolver.init g seed M).grid) g.length
      (g.getD 0 []).length M need (g.length * (g.getD 0 []).length + 1)
      ((HitoriSolver.init g seed M).state) [] s hs with h | h
  · cases h
  · exact valid_full_iff.1 h.1

/-- Witness for the component-bound theorem on the classical `2 × 2` grid. -/
theorem C3_solutions_within_component_bound_witness :
    (0 : Int) < 1 ∧
    ([[some 0, some 0], [some 0, some 0]] : LState)
        ∈ ((HitoriSolver.init [[1, 2], [2, 1]] none 1).solve 1).solutions ∧
    (count_connected_components
        (white_map 2 2 [[some 0, some 0], [some 0, some 0]]) : Int) ≤ 1 :=
  ⟨by decide, by decide,
    C3_solutions_within_component_bound [[1, 2], [2, 1]] none 1 1 _ (by decide) (by decide)⟩

/-- **C5**: the optimistic component bound is an admissible pruning relaxation:
whenever `check_components` rejects a partial state (its undecided-as-kept mask
has more than `M` components), every fully decided extension of that state that
respects the no-adjacent-removed rule fails the exact component check of
`valid_full` as well — so the pruning never discards a branch that could reach
a valid Solution (boards are at least `2 × 2`, as the Grid Validator
guarantees). -/
theorem C5_pruning_admissible (H W : Nat) (M : Int) (st t : LState)
    (hH : 2 ≤ H) (hW : 2 ≤ W)
    (hext : extendsState H W st t = true)
    (hfull : fullyDecided H W t = true)
    (hadj : noTwoAdjacentRemoved H W t = true)
    (hchk : check_components H W M st = false) :
    valid_full H W M t = false := by
  by_contra hvf
  rw [Bool.not_eq_false] at hvf
  have h1 := valid_full_iff.1 hvf
  have hle := optimistic_le_exact hH (extendsState_iff.1 hext) (fullyDecided_iff.1 hfull)
    (noTwoAdjacentRemoved_iff.1 hadj)
  have h2 : check_components H W M st = true := by
    rw [check_components_iff]
    calc ((count_connected_components (binary_grid H W st)) : Int)
        ≤ (count_connected_components (white_map H W t) : Int) := by exact_mod_cast hle
      _ ≤ M := h1
  rw [h2] at hchk
  cases hchk

/-- Witness for admissibility: a `2 × 2` partial state whose optimistic mask
already has two components, and an adjacency-valid completion. -/
theorem C5_pruning_admissible_witness :
    (2 ≤ 2) ∧
    extendsState 2 2 [[none, some 1], [some 1, none]]
      [[some 0, some 1], [some 1, some 0]] = true ∧
    fullyDecided 2 2 [[some 0, some 1], [some 1, some 0]] = true ∧
    noTwoAdjacentRemoved 2 2 [[some 0, some 1], [some 1, some 0]] = true ∧
    check_components 2 2 1 [[none, some 1], [some 1, none]] = false ∧
    valid_full 2 2 1 [[some 0, some 1], [some 1, some 0]] = false :=
  ⟨by decide, by decide, by decide, by decide, by decide,
    C5_pruning_admissible 2 2 1 [[none, some 1], [some 1, none]]
      [[some 0, some 1], [some 1, some 0]] (by decide) (by decide) (by decide) (by decide)
      (by decide) (by decide)⟩

/-- **C8**: sibling-state restoration — after any `solve` call, whatever the
quota or the validators did below, the working label state of the solver is
exactly the state it held at the moment of the call (each tentative assignment
is reverted to undecided). -/
theorem C8_working_state_restored (s : HitoriSolver) (need : Int) :
    (s.solve need).state = s.state := by
  rw [solve_state]
  exact backtrack_fst s.grid s.H s.W s.max_components need _ s.state s.solutions

/-- **C9**: seed states are never re-validated: this fully decided resumed
state contains two orthogonally adjacent removed cells, yet `solve` stores and
returns it unchanged as a Solution (only the component count is checked on a
full state). -/
theorem C9_invalid_seed_returned :
    ((HitoriSolver.init [[1, 2], [2, 1]]
        (some [[some 1, some 1], [some 0, some 0]]) 1).solve 1).solutions
      = [[[some 1, some 1], [some 0, some 0]]] ∧
    noTwoAdjacentRemoved 2 2 [[some 1, some 1], [some 0, some 0]] = false := by
  constructor
  · rfl
  · decide

/-- **C10**: solutions accumulate on the solver object: the collected list is
never reset by `solve`, so after a first call that returned `k` solutions, a
second `solve` with the same quota on the same object returns the identical
list — the quota check fires on entry and no new branch is explored. -/
theorem C10_solutions_accumulate (s : HitoriSolver) (k : Int) (hk : 0 < k)
    (hlen : (((s.solve k).solutions).length : Int) = k) :
    ((s.solve k).solve k).solutions = (s.solve k).solutions := by
  rw [solve_solutions ((s.solve k)) k, backtrack_succ,
    if_pos ⟨hk, le_of_eq hlen.symm⟩]

/-- Witness: on the `2 × 2` grid a second `solve 1` call returns the first
call's single solution unchanged. -/
theorem C10_solutions_accumulate_witness :
    (0 : Int) < 1 ∧
    ((((HitoriSolver.init [[1, 2], [2, 1]] none 1).solve 1).solutions).length : Int) = 1 ∧
    (((HitoriSolver.init [[1, 2], [2, 1]] none 1).solve 1).solve 1).solutions
      = ((HitoriSolver.init [[1, 2], [2, 1]] none 1).solve 1).solutions :=
  ⟨by decide, by decide,
    C10_solutions_accumulate ((HitoriSolver.init [[1, 2], [2, 1]] none 1).solve 1) 1
      (by decide) (by decide)⟩

/-- **C4**: the quota contract of `solve` from the blank state: with quota
`k > 0` at most `k` Solutions are returned, and exactly `k` whenever the grid
admits at least `k`; the exhaustive run (`need = 0`) is duplicate-free and
returns exactly the complete label states that obey both local rules and keep
at most `M` components — no omissions (boards at least `2 × 2`, as the Grid
Validator guarantees). -/
theorem C4_quota_and_enumeration (g : Grid) (M k : Int)
    (hH : 2 ≤ g.length) (hW : 2 ≤ (g.getD 0 []).length) (hk : 0 < k) :
    ((HitoriSolver.init g none M).solve k).solutions.length ≤ k.toNat ∧
    (k.toNat ≤ ((HitoriSolver.init g none M).solve 0).solutions.length →
      ((HitoriSolver.init g none M).solve k).solutions.length = k.toNat) ∧
    ((HitoriSolver.init g none M).solve 0).solutions.Nodup ∧
    (∀ s : LState, s ∈ ((HitoriSolver.init g none M).solve 0).solutions ↔
      (dimsOk g.length (g.getD 0 []).length s = true ∧
       fullyDecided g.length (g.getD 0 []).length s = true ∧
       noTwoAdjacentRemoved g.length (g.getD 0 []).length s = true ∧
       keptValuesUnique g g.length (g.getD 0 []).length s = true ∧
       valid_full g.length (g.getD 0 []).length M s = true)) := by
  have htake : ((HitoriSolver.init g none M).solve k).solutions
      = (((HitoriSolver.init g none M).solve 0).solutions).take k.toNat := by
    rw [solve_solutions, solve_solutions]
    exact backtrack_take g g.length (g.getD 0 []).length M k hk
      (g.length * (g.getD 0 []).length + 1)
      (List.replicate g.length (List.replicate (g.getD 0 []).length none)) []
      (by simp; omega)
  obtain ⟨ext, hext, hnodup, hprops⟩ := backtrack_ext g g.length (g.getD 0 []).length M 0
    (g.length * (g.getD 0 []).length + 1)
    (List.replicate g.length (List.replicate (g.getD 0 []).length none)) []
    (dims_replicate _ _) (cellsOk_replicate _ _)
  have hsol0 : ((HitoriSolver.init g none M).solve 0).solutions = ext := by
    show (backtrack g g.length (g.getD 0 []).length M 0
        (g.length * (g.getD 0 []).length + 1)
        (List.replicate g.length (List.replicate (g.getD 0 []).length none)) []).2 = ext
    rw [hext]
    exact List.nil_append ext
  refine ⟨?_, ?_, ?_, ?_⟩
  · rw [htake, List.length_take]
    omega
  · intro hge
    rw [htake, List.length_take]
    omega
  · rw [hsol0]
    exact hnodup
  · intro s
    constructor
    · intro hs
      obtain ⟨hd, hf, hxext⟩ := hprops s (by rw [hsol0] at hs; exact hs)
      have hsound := backtrack_mem_sound g g.length (g.getD 0 []).length M 0
        (g.length * (g.getD 0 []).length + 1)
        (List.replicate g.length (List.replicate (g.getD 0 []).length none)) [] s hs
      rcases hsound with h0 | h0
      · cases h0
      · have hcons := h0.2.2 (consistent_replicate g _ _)
        exact ⟨dimsOk_iff.2 hd, hf, noTwoAdjacentRemoved_iff.2 hcons.1,
          keptValuesUnique_iff.2 ⟨hcons.2.1, hcons.2.2⟩, h0.1⟩
    · rintro ⟨hd, hf, ha, hu, hv⟩
      have hmem := backtrack_complete g g.length (g.getD 0 []).length M hH
        (g.length * (g.getD 0 []).length + 1)
        (List.replicate g.length (List.replicate (g.getD 0 []).length none)) [] s
        (dims_replicate _ _) (dimsOk_iff.1 hd)
        (by rw [noneCountWin_replicate])
        (extendsState_replicate _ _ s) hf ha hu hv
      rw [solve_solutions]
      exact hmem

/-- Witness for the quota contract on the classical `2 × 2` grid with
`M = 1` and `k = 1`. -/
theorem C4_quota_and_enumeration_witness :
    (2 ≤ ([[1, 2], [2, 1]] : Grid).length) ∧ ((0 : Int) < 1) ∧
    (((HitoriSolver.init [[1, 2], [2, 1]] none 1).solve 1).solutions.length
        ≤ (1 : Int).toNat ∧
     ((1 : Int).toNat
          ≤ ((HitoriSolver.init [[1, 2], [2, 1]] none 1).solve 0).solutions.length →
        ((HitoriSolver.init [[1, 2], [2, 1]] none 1).solve 1).solutions.length
          = (1 : Int).toNat) ∧
     ((HitoriSolver.init [[1, 2], [2, 1]] none 1).solve 0).solutions.Nodup ∧
     (∀ s : LState,
        s ∈ ((HitoriSolver.init [[1, 2], [2, 1]] none 1).solve 0).solutions ↔
        (dimsOk 2 2 s = true ∧ fullyDecided 2 2 s = true ∧
         noTwoAdjacentRemoved 2 2 s = true ∧
         keptValuesUnique [[1, 2], [2, 1]] 2 2 s = true ∧
         valid_full 2 2 1 s = true))) :=
  ⟨by decide, by decide,
    C4_quota_and_enumeration [[1, 2], [2, 1]] 1 1 (by decide) (by decide) (by decide)⟩

/-- **C6** counterexample: a resumed state with three rows on a `2 × 2` grid is
*not* rejected — `__init__` installs it verbatim, the search runs over it, and
the junk third row `[Removed, Kept]` survives into the returned Solution. -/
theorem C6_counterexample :
    ¬ (([[none, none], [none, none], [some 1, some 0]] : LState).length
        = ([[1, 2], [2, 1]] : Grid).length) ∧
    ((HitoriSolver.init [[1, 2], [2, 1]]
        (some [[none, none], [none, none], [some 1, some 0]]) 1).solve 1).solutions
      = [[[some 0, some 0], [some 0, some 0], [some 1, some 0]]] := by
  constructor
  · decide
  · rfl

/-- **C6** amended: `__init__` performs no dimension check on a resumed state —
a non-empty seed is installed verbatim, and every row of it beyond the grid
height is carried unchanged into every returned Solution (the search window
only ever touches rows `0 … H-1`). -/
theorem C6_no_seed_dimension_check (g : Grid) (seed : LState) (M need : Int)
    (h : g.length < seed.length) :
    (HitoriSolver.init g (some seed) M).state = seed ∧
    ∀ s ∈ ((HitoriSolver.init g (some seed) M).solve need).solutions,
      s.length = seed.length ∧ s.drop g.length = seed.drop g.length := by
  have hne : seed ≠ [] := by
    intro he
    rw [he] at h
    simp at h
  have hst := init_some_state (g := g) (M := M) hne
  refine ⟨hst, ?_⟩
  intro s hs
  rw [solve_solutions] at hs
  rcases backtrack_frame (HitoriSolver.init g (some seed) M).grid
      (HitoriSolver.init g (some seed) M).H (HitoriSolver.init g (some seed) M).W
      (HitoriSolver.init g (some seed) M).max_components need _
      (HitoriSolver.init g (some seed) M).state
      (HitoriSolver.init g (some seed) M).solutions s hs with h0 | h0
  · rw [show (HitoriSolver.init g (some seed) M).solutions = [] from rfl] at h0
    cases h0
  · rw [hst] at h0
    exact ⟨h0.2, h0.1⟩

/-- Witness for the seed-dimension theorem at the concrete oversized seed. -/
theorem C6_no_seed_dimension_check_witness :
    ([[1, 2], [2, 1]] : Grid).length
        < ([[none, none], [none, none], [some 1, some 0]] : LState).length ∧
    ((HitoriSolver.init [[1, 2], [2, 1]]
        (some [[none, none], [none, none], [some 1, some 0]]) 1).state
        = [[none, none], [none, none], [some 1, some 0]] ∧
     ∀ s ∈ ((HitoriSolver.init [[1, 2], [2, 1]]
         (some [[none, none], [none, none], [some 1, some 0]]) 1).solve 1).solutions,
       s.length = ([[none, none], [none, none], [some 1, some 0]] : LState).length ∧
       s.drop ([[1, 2], [2, 1]] : Grid).length
         = ([[none, none], [none, none], [some 1, some 0]] : LState).drop
             ([[1, 2], [2, 1]] : Grid).length) :=
  ⟨by decide,
    C6_no_seed_dimension_check [[1, 2], [2, 1]]
      [[none, none], [none, none], [some 1, some 0]] 1 1 (by decide)⟩

/-- **C7** counterexample: a negative quota handed directly to `solve` is *not*
rejected and does not prevent the search — `solve (-1)` on the classical
`2 × 2` grid runs the full exhaustive search and returns solutions. -/
theorem C7_counterexample :
    ((HitoriSolver.init [[1, 2], [2, 1]] none 1).solve (-1)).solutions ≠ [] := by
  decide

/-- **C7** amended: negative bounds are rejected only in the CLI layer —
`main` errors out on `--M < 0` and on `--find < 0` before any solver is built —
while `HitoriSolver.solve` itself never validates `need`: every nonpositive
`need` silently behaves as "collect all solutions" (`solve need = solve 0`). -/
theorem C7_negative_rejected_only_in_cli (M1 M2 f need : Int) (a : Bool)
    (v : Option Int) (hM1 : M1 < 0) (hM2 : 0 ≤ M2) (hf : f < 0) (hneed : need ≤ 0) :
    (∃ e, mainNeed M1 a v = Except.error e) ∧
    (∃ e, mainNeed M2 false (some f) = Except.error e) ∧
    ∀ s : HitoriSolver, s.solve need = s.solve 0 := by
  refine ⟨⟨"Ошибка: значение --M должно быть неотрицательным", ?_⟩,
    ⟨"Ошибка: значение --find должно быть неотрицательным", ?_⟩, ?_⟩
  · unfold mainNeed
    rw [if_pos hM1]
  · unfold mainNeed
    rw [if_neg (show ¬(M2 < 0) by omega), if_neg (show ¬(false = true) by simp)]
    show (if f = 0 then Except.ok 0
        else if 0 < f then Except.ok f
        else Except.error "Ошибка: значение --find должно быть неотрицательным") = _
    rw [if_neg (show ¬(f = 0) by omega), if_neg (show ¬(0 < f) by omega)]
  · intro s
    show ({ s with
        state := (backtrack s.grid s.H s.W s.max_components need (s.H * s.W + 1)
          s.state s.solutions).1,
        solutions := (backtrack s.grid s.H s.W s.max_components need (s.H * s.W + 1)
          s.state s.solutions).2 } : HitoriSolver)
      = { s with
        state := (backtrack s.grid s.H s.W s.max_components 0 (s.H * s.W + 1)
          s.state s.solutions).1,
        solutions := (backtrack s.grid s.H s.W s.max_components 0 (s.H * s.W + 1)
          s.state s.solutions).2 }
    rw [backtrack_nonpos s.grid s.H s.W s.max_components need hneed]

/-- Witness for the CLI-rejection theorem at `M = -1`, `f = -2`, `need = -1`. -/
theorem C7_negative_rejected_only_in_cli_witness :
    ((-1 : Int) < 0) ∧ ((0 : Int) ≤ 1) ∧ ((-2 : Int) < 0) ∧ ((-1 : Int) ≤ 0) ∧
    ((∃ e, mainNeed (-1) false none = Except.error e) ∧
     (∃ e, mainNeed 1 false (some (-2)) = Except.error e) ∧
     ∀ s : HitoriSolver, s.solve (-1) = s.solve 0) :=
  ⟨by decide, by decide, by decide, by decide,
    C7_negative_rejected_only_in_cli (-1) 1 (-2) (-1) false none
      (by decide) (by decide) (by decide) (by decide)⟩

end Hitori
